import Mathlib

/-!
# Verification of the pearpass native-messaging bridge

Shallow embedding of `src/nativeMessagingProtocol.js` and
`src/nativeMessagingHandler.js`, together with proofs of the behavioural
claims about the protocol envelope (`wrapMessage` / `unwrapMessage` /
`isWrappedMessage`) and the stream-framing engine
(`processStandardMessage` / `processNextMessageRobust` /
`handleIncomingChunk`).

Modelling conventions:
* JavaScript values reachable by this code are modelled by `JsValue`.
  Numbers are modelled as integers (`Int`); no claim exercises fractional
  numbers.  Object property order is the insertion order of the underlying
  association list (all keys appearing in the source are non-index keys,
  for which JavaScript also uses insertion order).
* `JSON.stringify` is modelled by `stringify`, which returns `none` when
  JavaScript would return the value `undefined` (input `undefined`), and
  otherwise the serialized character list.  `Buffer.from(JSON.stringify(x))`
  therefore throws exactly when `stringify x = none`, which the envelope
  functions model with an `Option` result (`none` = a thrown exception).
* Byte buffers are `List Nat` (each entry a byte value).  UTF-8 encoding
  and decoding are modelled by `utf8Encode` / `utf8Decode`; on malformed
  input the decoder emits U+FFFD replacement characters (no claim depends
  on the exact replacement policy for malformed bytes).
-/

/-- A JavaScript value as reachable by the bridge code: `undefined`, `null`,
booleans, numbers (modelled as integers), strings (lists of Unicode scalar
values), arrays and plain objects (association lists in property order). -/
inductive JsValue where
  | undef
  | null
  | bool (b : Bool)
  | num (n : Int)
  | str (s : List Char)
  | arr (elems : List JsValue)
  | obj (fields : List (List Char × JsValue))

/-- The property name `length`. -/
def kLength : List Char := ['l', 'e', 'n', 'g', 't', 'h']

/-- The property name `message`. -/
def kMessage : List Char := ['m', 'e', 's', 's', 'a', 'g', 'e']

/-- JavaScript truthiness (`!!v`). -/
def truthy : JsValue → Bool
  | .undef => false
  | .null => false
  | .bool b => b
  | .num n => n != 0
  | .str s => !s.isEmpty
  | .arr _ => true
  | .obj _ => true

/-- `typeof v === 'object'` (true for objects, arrays and `null`). -/
def typeofIsObject : JsValue → Bool
  | .null => true
  | .arr _ => true
  | .obj _ => true
  | _ => false

/-- Property lookup (`v[k]`); `none` models an absent property (reading it
would give `undefined`).  On objects the first binding wins (association
lists built by this development have distinct keys). -/
def getField (v : JsValue) (k : List Char) : Option JsValue :=
  match v with
  | .obj kvs => kvs.lookup k
  | .arr xs => if k = kLength then some (.num xs.length) else none
  | _ => none

/-- `k in v`: own-property presence, including the non-enumerable `length`
of arrays. -/
def hasField (v : JsValue) (k : List Char) : Bool :=
  (getField v k).isSome

/-- The number of own enumerable keys, `Object.keys(v).length`: for objects
the number of distinct field names, for arrays the number of elements. -/
def ownKeyCount : JsValue → Nat
  | .obj kvs => ((kvs.map Prod.fst).dedup).length
  | .arr xs => xs.length
  | _ => 0

/-- Whether a looked-up property holds a number (`typeof v[k] === 'number'`). -/
def fieldIsNumber (v : JsValue) (k : List Char) : Bool :=
  match getField v k with
  | some (.num _) => true
  | _ => false

/-- Decimal digit character for `d < 10`. -/
def digitChar (d : Nat) : Char := Char.ofNat ('0'.toNat + d % 10)

/-- Decimal digits, fuel-bounded (structurally recursive so that concrete
instances reduce definitionally; `natDigits` supplies sufficient fuel). -/
def natDigitsF : Nat → Nat → List Char → List Char
  | 0, n, acc => digitChar n :: acc
  | fuel + 1, n, acc =>
    if n < 10 then digitChar n :: acc
    else natDigitsF fuel (n / 10) (digitChar (n % 10) :: acc)

/-- Decimal digits of `n`, most significant first, prepended to `acc`. -/
def natDigits (n : Nat) (acc : List Char) : List Char := natDigitsF n n acc

/-- The decimal character representation of an integer, as printed by
`JSON.stringify` for integral numbers. -/
def intChars (n : Int) : List Char :=
  if n < 0 then '-' :: natDigits n.natAbs [] else natDigits n.natAbs []

/-- Lower-case hexadecimal digit character for `d < 16`. -/
def hexChar (d : Nat) : Char :=
  if d < 10 then Char.ofNat ('0'.toNat + d) else Char.ofNat ('a'.toNat + (d - 10))

/-- JSON escaping of one string character, as produced by `JSON.stringify`:
quote and backslash get a backslash escape, the five control characters with
short forms use them, other control characters use a `\u00xx` escape, and
everything else is emitted literally. -/
def escapeChar (c : Char) : List Char :=
  if c = '"' then ['\\', '"']
  else if c = '\\' then ['\\', '\\']
  else if c = Char.ofNat 8 then ['\\', 'b']
  else if c = Char.ofNat 9 then ['\\', 't']
  else if c = Char.ofNat 10 then ['\\', 'n']
  else if c = Char.ofNat 12 then ['\\', 'f']
  else if c = Char.ofNat 13 then ['\\', 'r']
  else if c.toNat < 32 then
    ['\\', 'u', '0', '0', hexChar (c.toNat / 16), hexChar (c.toNat % 16)]
  else [c]

/-- The body of a JSON string literal: every character escaped as needed. -/
def escapeChars : List Char → List Char
  | [] => []
  | c :: cs => escapeChar c ++ escapeChars cs

/-- A complete JSON string literal (`"…"`) for the character list `s`. -/
def quoteChars (s : List Char) : List Char :=
  '"' :: (escapeChars s ++ ['"'])

/-- The characters `null`. -/
def nullChars : List Char := ['n', 'u', 'l', 'l']

/-- Comma-join a list of fragments. -/
def joinComma : List (List Char) → List Char
  | [] => []
  | [f] => f
  | f :: rest => f ++ ',' :: joinComma rest

mutual
/-- `JSON.stringify`, on the modelled value space.  `none` models the
JavaScript result `undefined` (produced for input `undefined`); object
fields whose values are unserializable are omitted, array elements that are
unserializable become `null`, matching `JSON.stringify`. -/
def stringify : JsValue → Option (List Char)
  | .undef => none
  | .null => some nullChars
  | .bool true => some ['t', 'r', 'u', 'e']
  | .bool false => some ['f', 'a', 'l', 's', 'e']
  | .num n => some (intChars n)
  | .str s => some (quoteChars s)
  | .arr xs => some ('[' :: (stringifyItems xs ++ [']']))
  | .obj kvs => some ('{' :: (joinComma (stringifyFields kvs) ++ ['}']))

/-- Array elements, comma separated (head of a non-empty array). -/
def stringifyItems : List JsValue → List Char
  | [] => []
  | x :: xs => stringifyItem x ++ stringifyItemsTail xs

/-- Array elements after the first: each preceded by a comma. -/
def stringifyItemsTail : List JsValue → List Char
  | [] => []
  | x :: xs => ',' :: (stringifyItem x ++ stringifyItemsTail xs)

/-- One array element; an unserializable element prints as `null`. -/
def stringifyItem (x : JsValue) : List Char :=
  match stringify x with
  | some s => s
  | none => nullChars

/-- The `"key":value` fragments of an object's serializable fields. -/
def stringifyFields : List (List Char × JsValue) → List (List Char)
  | [] => []
  | (k, v) :: rest =>
    match stringify v with
    | some sv => (quoteChars k ++ ':' :: sv) :: stringifyFields rest
    | none => stringifyFields rest
end

/-- UTF-8 encoding of one Unicode scalar value. -/
def charUtf8 (c : Char) : List Nat :=
  let n := c.toNat
  if n < 128 then [n]
  else if n < 2048 then [192 + n / 64, 128 + n % 64]
  else if n < 65536 then [224 + n / 4096, 128 + n / 64 % 64, 128 + n % 64]
  else [240 + n / 262144, 128 + n / 4096 % 64, 128 + n / 64 % 64, 128 + n % 64]

/-- UTF-8 encoding of a character list (`Buffer.from(string, 'utf8')`). -/
def utf8Encode : List Char → List Nat
  | [] => []
  | c :: cs => charUtf8 c ++ utf8Encode cs

/-- The UTF-8 byte length of a character list. -/
def utf8Len (s : List Char) : Nat := (utf8Encode s).length

/-- The replacement character U+FFFD. -/
def replChar : Char := Char.ofNat 65533

/-- Whether a byte is a UTF-8 continuation byte. -/
def isCont (b : Nat) : Bool := 128 ≤ b && b < 192

/-- UTF-8 decoding (`buffer.toString('utf8')`).  Well-formed sequences
decode exactly; a malformed leading byte or sequence yields U+FFFD and
decoding resumes after the offending leading byte (no claim depends on the
malformed-input policy). -/
def utf8DecodeF : Nat → List Nat → List Char
  | 0, _ => []
  | fuel + 1, l =>
    match l with
    | [] => []
    | b :: bs =>
      if b < 128 then Char.ofNat b :: utf8DecodeF fuel bs
      else if 194 ≤ b && b ≤ 223 then
        match bs with
        | b1 :: bs' =>
          if isCont b1 then
            Char.ofNat ((b - 192) * 64 + (b1 - 128)) :: utf8DecodeF fuel bs'
          else replChar :: utf8DecodeF fuel bs
        | [] => [replChar]
      else if 224 ≤ b && b ≤ 239 then
        match bs with
        | b1 :: b2 :: bs' =>
          if isCont b1 && isCont b2 then
            let v := (b - 224) * 4096 + (b1 - 128) * 64 + (b2 - 128)
            if 2048 ≤ v && (v < 55296 || 57343 < v) then
              Char.ofNat v :: utf8DecodeF fuel bs'
            else replChar :: utf8DecodeF fuel bs
          else replChar :: utf8DecodeF fuel bs
        | _ => replChar :: utf8DecodeF fuel bs
      else if 240 ≤ b && b ≤ 244 then
        match bs with
        | b1 :: b2 :: b3 :: bs' =>
          if isCont b1 && isCont b2 && isCont b3 then
            let v := (b - 240) * 262144 + (b1 - 128) * 4096 + (b2 - 128) * 64 + (b3 - 128)
            if 65536 ≤ v && v < 1114112 then
              Char.ofNat v :: utf8DecodeF fuel bs'
            else replChar :: utf8DecodeF fuel bs
          else replChar :: utf8DecodeF fuel bs
        | _ => replChar :: utf8DecodeF fuel bs
      else replChar :: utf8DecodeF fuel bs

/-- UTF-8 decoding of a byte list; each step consumes at least one byte, so
`l.length` is always sufficient fuel. -/
def utf8Decode (l : List Nat) : List Char := utf8DecodeF l.length l

/-- JSON whitespace. -/
def isWsChar (c : Char) : Bool := c = ' ' || c = '\t' || c = '\n' || c = '\r'

/-- Drop leading JSON whitespace. -/
def skipWs : List Char → List Char
  | c :: cs => if isWsChar c then skipWs cs else c :: cs
  | [] => []

/-- Decimal digit predicate. -/
def isDigitChar (c : Char) : Bool := '0' ≤ c && c ≤ '9'

/-- Greedily take decimal digits. -/
def takeDigits : List Char → List Char × List Char
  | c :: cs =>
    if isDigitChar c then
      let (ds, r) := takeDigits cs
      (c :: ds, r)
    else ([], c :: cs)
  | [] => ([], [])

/-- Numeric value of a digit string. -/
def digitsToNat (ds : List Char) : Nat :=
  ds.foldl (fun a c => a * 10 + (c.toNat - '0'.toNat)) 0

/-- Value of a hexadecimal digit character. -/
def hexVal (c : Char) : Option Nat :=
  let n := c.toNat
  if 48 ≤ n ∧ n ≤ 57 then some (n - 48)
  else if 97 ≤ n ∧ n ≤ 102 then some (n - 87)
  else if 65 ≤ n ∧ n ≤ 70 then some (n - 55)
  else none

/-- Single-character JSON escapes. -/
def unescapeChar : Char → Option Char
  | '"' => some '"'
  | '\\' => some '\\'
  | '/' => some '/'
  | 'b' => some (Char.ofNat 8)
  | 'f' => some (Char.ofNat 12)
  | 'n' => some (Char.ofNat 10)
  | 'r' => some (Char.ofNat 13)
  | 't' => some (Char.ofNat 9)
  | _ => none

/-- Parse a JSON string body after the opening quote: returns the unescaped
content and the input after the closing quote.  Raw control characters are
rejected, as by `JSON.parse`.  (`\uXXXX` escapes become the scalar with that
code point; surrogate pairing of two escapes is not modelled — the values
exercised here never contain `\uD800`-`\uDFFF` escapes.) -/
def parseStrBodyF : Nat → List Char → Option (List Char × List Char)
  | 0, _ => none
  | fuel + 1, l =>
    match l with
    | [] => none
    | '"' :: rest => some ([], rest)
    | '\\' :: e :: rest =>
      if e = 'u' then
        match rest with
        | a :: b :: c :: d :: rest' => do
          let va ← hexVal a
          let vb ← hexVal b
          let vc ← hexVal c
          let vd ← hexVal d
          let (s, r) ← parseStrBodyF fuel rest'
          some (Char.ofNat (((va * 16 + vb) * 16 + vc) * 16 + vd) :: s, r)
        | _ => none
      else do
        let ch ← unescapeChar e
        let (s, r) ← parseStrBodyF fuel rest
        some (ch :: s, r)
    | c :: rest =>
      if c.toNat < 32 then none
      else do
        let (s, r) ← parseStrBodyF fuel rest
        some (c :: s, r)

/-- Parse a JSON string body; each step consumes at least one character, so
`l.length` is always sufficient fuel. -/
def parseStrBody (l : List Char) : Option (List Char × List Char) :=
  parseStrBodyF l.length l

/-- Parse a JSON number.  Only integral numbers are modelled (a fraction or
exponent fails the parse); the values exchanged by the bridge are integral. -/
def parseNumber (cs : List Char) : Option (JsValue × List Char) :=
  let (neg, cs1) := match cs with
    | '-' :: r => (true, r)
    | _ => (false, cs)
  let (ds, cs2) := takeDigits cs1
  if ds.isEmpty then none
  else if ds.length > 1 && ds.headI = '0' then none
  else
    match cs2 with
    | '.' :: _ => none
    | 'e' :: _ => none
    | 'E' :: _ => none
    | _ =>
      let v : Int := digitsToNat ds
      some (.num (if neg then -v else v), cs2)

/-- The continuation after a printed number never extends the number token:
it is empty or starts with a non-digit other than a fraction or exponent
marker (the separators and closers of JSON composites qualify). -/
def numBoundary : List Char → Prop
  | [] => True
  | c :: _ => isDigitChar c = false ∧ c ≠ '.' ∧ c ≠ 'e' ∧ c ≠ 'E'

/-- JavaScript property assignment while building a parsed object: an
existing key is overwritten in place, a new key is appended. -/
def insertKey (kvs : List (List Char × JsValue)) (k : List Char) (v : JsValue) :
    List (List Char × JsValue) :=
  if kvs.any (fun p => p.1 = k) then
    kvs.map (fun p => if p.1 = k then (k, v) else p)
  else kvs ++ [(k, v)]

mutual
/-- `JSON.parse`, value production (fuel-bounded; `jsonParse` supplies
sufficient fuel). -/
def parseValue : Nat → List Char → Option (JsValue × List Char)
  | 0, _ => none
  | fuel + 1, cs =>
    match skipWs cs with
    | 'n' :: 'u' :: 'l' :: 'l' :: rest => some (.null, rest)
    | 't' :: 'r' :: 'u' :: 'e' :: rest => some (.bool true, rest)
    | 'f' :: 'a' :: 'l' :: 's' :: 'e' :: rest => some (.bool false, rest)
    | '"' :: rest => (parseStrBody rest).map (fun p => (.str p.1, p.2))
    | '[' :: rest =>
      (match skipWs rest with
       | ']' :: r' => some (.arr [], r')
       | cs' => (parseElems fuel cs').map (fun p => (.arr p.1, p.2)))
    | '{' :: rest =>
      (match skipWs rest with
       | '}' :: r' => some (.obj [], r')
       | cs' => (parseMembers fuel [] cs').map (fun p => (.obj p.1, p.2)))
    | c :: rest =>
      if c = '-' || isDigitChar c then parseNumber (c :: rest) else none
    | [] => none

/-- `JSON.parse`, elements of a non-empty array. -/
def parseElems : Nat → List Char → Option (List JsValue × List Char)
  | 0, _ => none
  | fuel + 1, cs => do
    let (v, r) ← parseValue fuel cs
    match skipWs r with
    | ',' :: r' => do
      let (vs, r'') ← parseElems fuel r'
      some (v :: vs, r'')
    | ']' :: r' => some ([v], r')
    | _ => none

/-- `JSON.parse`, members of a non-empty object, accumulating built
properties with JavaScript assignment semantics. -/
def parseMembers : Nat → List (List Char × JsValue) → List Char →
    Option (List (List Char × JsValue) × List Char)
  | 0, _, _ => none
  | fuel + 1, acc, cs =>
    match skipWs cs with
    | '"' :: rest => do
      let (k, r1) ← parseStrBody rest
      match skipWs r1 with
      | ':' :: r2 => do
        let (v, r3) ← parseValue fuel r2
        let acc' := insertKey acc k v
        match skipWs r3 with
        | ',' :: r4 => parseMembers fuel acc' r4
        | '}' :: r4 => some (acc', r4)
        | _ => none
      | _ => none
    | _ => none
end

/-- `JSON.parse`: parse one value and require only whitespace after it;
`none` models a thrown `SyntaxError`. -/
def jsonParse (s : List Char) : Option JsValue :=
  match parseValue (s.length + 1) s with
  | some (v, rest) => if (skipWs rest).isEmpty then some v else none
  | none => none

/-- `wrapMessage` (nativeMessagingProtocol.js, lines 16-24): serialize the
message, measure its UTF-8 byte length, and return the
`{length, message}` envelope.  `none` models the `TypeError` thrown by
`Buffer.from(undefined)` when the message is unserializable. -/
def wrapMessage (message : JsValue) : Option JsValue :=
  match stringify message with
  | some originalJson =>
    some (.obj [(kLength, .num (utf8Len originalJson)), (kMessage, message)])
  | none => none

/-- `isWrappedMessage` (nativeMessagingProtocol.js, lines 49-55): truthiness,
`typeof === 'object'`, exactly two own enumerable keys, a numeric `length`
property, and a `message` property. -/
def isWrappedMessage (message : JsValue) : Bool :=
  truthy message &&
  typeofIsObject message &&
  ownKeyCount message == 2 &&
  hasField message kLength &&
  fieldIsNumber message kLength &&
  hasField message kMessage

/-- The `length` property of a wrapped value as an integer (defined when
`isWrappedMessage` holds). -/
def wrappedLength (v : JsValue) : Int :=
  match getField v kLength with
  | some (.num n) => n
  | _ => 0

/-- The `message` property of a value (reading an absent property gives
`undefined`). -/
def wrappedMessage (v : JsValue) : JsValue :=
  match getField v kMessage with
  | some m => m
  | none => (.undef)

/-- `unwrapMessage` (nativeMessagingProtocol.js, lines 31-42): returns the
inner message, or `null` for a structurally invalid envelope or a length
mismatch.  The outer `Option` distinguishes a normal return (`some r`) from
a thrown exception (`none`): when `JSON.stringify(wrapped.message)` yields
the value `undefined`, `Buffer.from(undefined)` throws a `TypeError`. -/
def unwrapMessage (wrapped : JsValue) : Option JsValue :=
  if !isWrappedMessage wrapped then some .null
  else
    match stringify (wrappedMessage wrapped) with
    | none => none
    | some messageJson =>
      if (utf8Len messageJson : Int) != wrappedLength wrapped then some .null
      else some (wrappedMessage wrapped)

/-- `MESSAGE_SIZE_LIMIT` (nativeMessagingHandler.js, line 13). -/
def MESSAGE_SIZE_LIMIT : Nat := 1024 * 1024

/-- `HEADER_SIZE` (nativeMessagingHandler.js, line 14). -/
def HEADER_SIZE : Nat := 4

/-- Observable effects of the handler: `message` / `error` events emitted on
the instance, and `log('ERROR', …)` calls, in occurrence order. -/
inductive Ev where
  | message (m : JsValue)
  | errorInvalidJson
  | errorUnwrapFailed
  | logTooLarge
  | logParseFailed
  | logBufferTooLarge

/-- The mutable fields of a `NativeMessagingHandler` instance touched by the
framing engine (constructor, lines 22-34). -/
structure HandlerState where
  inputBuffer : List Nat
  messageInProgress : Bool
  expectedMessageLength : Nat
  accumulatedString : List Char
  useRobustParsing : Bool

/-- The state of a freshly constructed handler. -/
def initialHandlerState : HandlerState :=
  { inputBuffer := []
    messageInProgress := false
    expectedMessageLength := 0
    accumulatedString := []
    useRobustParsing := true }

/-- `buffer.readUInt32LE(0)`: little-endian 32-bit read of the first four
bytes. -/
def readUInt32LE (l : List Nat) : Nat :=
  l.getD 0 0 + 256 * l.getD 1 0 + 65536 * l.getD 2 0 + 16777216 * l.getD 3 0

/-- `_handleParsedMessage` (lines 164-175), also inlined in the robust path
(lines 248-257): the events emitted for one parsed JSON value.  `none`
models the exception thrown inside `unwrapMessage` before any event is
emitted (propagated to the caller's catch). -/
def handleParsedMessage (message : JsValue) : Option (List Ev) :=
  if isWrappedMessage message then
    match unwrapMessage message with
    | none => none
    | some unwrapped =>
      if truthy unwrapped then some [.message unwrapped]
      else some [.errorUnwrapFailed]
  else some [.message message]

/-- `_parseAndEmitMessage` (lines 148-158): parse the payload bytes as JSON
and emit; any exception inside the `try` is caught, logged, and surfaced as
an `Invalid JSON message` error event. -/
def parseAndEmitMessage (messageBuffer : List Nat) : Bool × List Ev :=
  match jsonParse (utf8Decode messageBuffer) with
  | some message =>
    match handleParsedMessage message with
    | some evs => (true, evs)
    | none => (false, [.logParseFailed, .errorInvalidJson])
  | none => (false, [.logParseFailed, .errorInvalidJson])

/-- `_resetMessageState` (lines 130-133). -/
def resetMessageState (st : HandlerState) : HandlerState :=
  { st with messageInProgress := false, expectedMessageLength := 0 }

/-- `_resetBuffer` (lines 138-141). -/
def resetBuffer (st : HandlerState) : HandlerState :=
  resetMessageState { st with inputBuffer := [] }

/-- `_readMessageLength` (lines 115-125): read the header, record it, and
reject (clearing the whole buffer) when it exceeds the 1 MiB limit. -/
def readMessageLength (st : HandlerState) : Bool × HandlerState × List Ev :=
  let n := readUInt32LE st.inputBuffer
  let st := { st with expectedMessageLength := n, messageInProgress := true }
  if n > MESSAGE_SIZE_LIMIT then (false, resetBuffer st, [.logTooLarge])
  else (true, st, [])

/-- `_processStandardMessage` (lines 90-109): strict 4-byte-header framing. -/
def processStandardMessage (st : HandlerState) : Bool × HandlerState × List Ev :=
  if st.inputBuffer.length < HEADER_SIZE then (false, st, [])
  else
    let step := if st.messageInProgress then (true, st, []) else readMessageLength st
    match step with
    | (false, st1, evs) => (false, st1, evs)
    | (true, st1, evs) =>
      let totalLength := HEADER_SIZE + st1.expectedMessageLength
      if st1.inputBuffer.length < totalLength then (false, st1, evs)
      else
        let messageBuffer := (st1.inputBuffer.take totalLength).drop HEADER_SIZE
        let st2 := resetMessageState { st1 with inputBuffer := st1.inputBuffer.drop totalLength }
        let (ok, evs2) := parseAndEmitMessage messageBuffer
        (ok, st2, evs ++ evs2)

/-- State of the brace-scanning loop of `processNextMessageRobust`
(lines 202-205): inside-string flag, escape flag, and brace depth. -/
structure ScanState where
  inString : Bool
  escapeNext : Bool
  braceCount : Int

/-- The scan state at the start of a candidate (lines 202-204). -/
def initScan : ScanState := { inString := false, escapeNext := false, braceCount := 0 }

/-- Shift a relative found-index by one position. -/
def bumpIdx : Nat ⊕ ScanState → Nat ⊕ ScanState
  | .inl j => .inl (j + 1)
  | .inr s => .inr s

/-- Shift a relative found-index by `n` positions (used to reason about
scanning concatenated fragments). -/
def bumpN (n : Nat) : Nat ⊕ ScanState → Nat ⊕ ScanState
  | .inl j => .inl (n + j)
  | .inr s => .inr s

/-- The inner character loop of `processNextMessageRobust` (lines 207-236),
relative to the scan start: `.inl j` means the loop broke with
`endIndex = start + j` (one past the balancing `}`); `.inr st` means the
characters ran out in state `st` (`endIndex === -1`). -/
def scanChars : List Char → ScanState → Nat ⊕ ScanState
  | [], st => .inr st
  | c :: cs, st =>
    if st.escapeNext then bumpIdx (scanChars cs { st with escapeNext := false })
    else if c = '\\' then bumpIdx (scanChars cs { st with escapeNext := true })
    else if c = '"' then bumpIdx (scanChars cs { st with inString := !st.inString })
    else if !st.inString && c = '{' then
      bumpIdx (scanChars cs { st with braceCount := st.braceCount + 1 })
    else if !st.inString && c = '}' then
      if st.braceCount - 1 = 0 then .inl 1
      else bumpIdx (scanChars cs { st with braceCount := st.braceCount - 1 })
    else bumpIdx (scanChars cs st)

/-- `accumulatedString.indexOf('{', startIndex)`. -/
def findOpenBrace (data : List Char) (start : Nat) : Option Nat :=
  ((data.drop start).findIdx? (· = '{')).map (start + ·)

/-- How an invocation of the robust scan loop ended: a message was found
and consumed; the candidate object was incomplete (`endIndex === -1`,
returning `false` directly, before the buffer-size safety valve); or the
`while` loop ended without a message (falling through to the safety
valve). -/
inductive RobustSignal where
  | found
  | incomplete
  | exhausted
deriving DecidableEq

/-- The `while (startIndex < accumulatedString.length)` loop of
`processNextMessageRobust` (lines 195-272).  `fuel` only bounds the
iteration count; it is called with more fuel than the loop can consume
(each iteration advances `startIndex` by at least one). -/
def robustLoop (st : HandlerState) (data : List Char) :
    Nat → Nat → List Ev → RobustSignal × HandlerState × List Ev
  | 0, _, evs => (.exhausted, st, evs)
  | fuel + 1, startIndex, evs =>
    if startIndex < data.length then
      match findOpenBrace data startIndex with
      | none => (.exhausted, st, evs)
      | some openBrace =>
        match scanChars (data.drop openBrace) initScan with
        | .inr _ => (.incomplete, st, evs)
        | .inl rel =>
          let endIndex := openBrace + rel
          let jsonStr := (data.take endIndex).drop openBrace
          match jsonParse jsonStr with
          | some message =>
            match handleParsedMessage message with
            | some evs2 =>
              let bytesToRemove := HEADER_SIZE + utf8Len (data.take endIndex)
              ( .found,
                { st with inputBuffer := st.inputBuffer.drop bytesToRemove },
                evs ++ evs2 )
            | none => robustLoop st data fuel (openBrace + 1) (evs ++ [.logParseFailed])
          | none => robustLoop st data fuel (openBrace + 1) (evs ++ [.logParseFailed])
    else (.exhausted, st, evs)

/-- `processNextMessageRobust` (lines 182-282): skip the untrusted 4-byte
header, scan the decoded text for a balanced JSON object, and apply the
10,000-byte safety valve only when the `while` loop ended without a
message (the incomplete-candidate `return false` bypasses the valve). -/
def processNextMessageRobust (st : HandlerState) : Bool × HandlerState × List Ev :=
  if st.inputBuffer.length < 4 then (false, st, [])
  else
    let data := utf8Decode (st.inputBuffer.drop 4)
    let st1 := { st with accumulatedString := data }
    match robustLoop st1 data (data.length + 1) 0 [] with
    | (.found, st', evs) => (true, st', evs)
    | (.incomplete, st', evs) => (false, st', evs)
    | (.exhausted, st', evs) =>
      if st'.inputBuffer.length > 10000 then
        (false, { st' with inputBuffer := [], accumulatedString := [] },
          evs ++ [.logBufferTooLarge])
      else (false, st', evs)

/-- `processNextMessage` (lines 79-84). -/
def processNextMessage (st : HandlerState) : Bool × HandlerState × List Ev :=
  if st.useRobustParsing then processNextMessageRobust st
  else processStandardMessage st

/-- The `while (this.processNextMessage())` loop of `handleIncomingChunk`
(lines 62-64).  `fuel` only bounds the iteration count; the loop is entered
with more fuel than it can consume (each successful call strictly shrinks
the buffer). -/
def drainLoop : Nat → HandlerState → HandlerState × List Ev
  | 0, st => (st, [])
  | fuel + 1, st =>
    match processNextMessage st with
    | (true, st', evs) =>
      let (st'', evs') := drainLoop fuel st'
      (st'', evs ++ evs')
    | (false, st', evs) => (st', evs)

/-- `handleIncomingChunk` (lines 58-65): append the chunk, then drain
messages while available. -/
def handleIncomingChunk (st : HandlerState) (chunk : List Nat) : HandlerState × List Ev :=
  let st1 := { st with inputBuffer := st.inputBuffer ++ chunk }
  drainLoop (st1.inputBuffer.length + 1) st1

/-- Deliver a sequence of chunks (successive `data` events), collecting all
emitted events in order. -/
def runChunks (st : HandlerState) (chunks : List (List Nat)) : HandlerState × List Ev :=
  chunks.foldl
    (fun acc chunk =>
      let (st', evs') := handleIncomingChunk acc.1 chunk
      (st', acc.2 ++ evs'))
    (st, [])

/-- The spec's driving loop, as a relation: starting from a state, the
strategy is invoked repeatedly; each invocation reporting a message chains
into the next, the first invocation reporting none ends the run; events
accumulate in invocation order.  `Drains s s' evs` holds when the
repeat-until-no-message loop started at `s` ends at `s'` having emitted
exactly `evs`. -/
inductive Drains : HandlerState → HandlerState → List Ev → Prop where
  | stop {s s' evs} : processNextMessage s = (false, s', evs) → Drains s s' evs
  | step {s s1 s2 evs evs'} :
      processNextMessage s = (true, s1, evs) →
      Drains s1 s2 evs' →
      Drains s s2 (evs ++ evs')

/-- `uint32` little-endian byte encoding (`header.writeUInt32LE`). -/
def uint32LE (n : Nat) : List Nat :=
  [n % 256, n / 256 % 256, n / 65536 % 256, n / 16777216 % 256]

/-- A non-null object (`typeof v === 'object' && v !== null`): an object or
an array. -/
def isNonNullObject : JsValue → Bool
  | .obj _ => true
  | .arr _ => true
  | _ => false

/-- The spec's characterization of a wrapped value (spec §4.1 / §8 and claim
C8, written from the spec's words): a non-null object with exactly two own
enumerable keys, a present numeric `length` field, and a present `message`
field of any value. -/
def specIsWrapped (v : JsValue) : Prop :=
  isNonNullObject v = true ∧
  ownKeyCount v = 2 ∧
  hasField v kLength = true ∧
  fieldIsNumber v kLength = true ∧
  hasField v kMessage = true

/-- Add `delta` to a numeric value (identity otherwise). -/
def addToNum (delta : Int) : JsValue → JsValue
  | .num n => .num (n + delta)
  | v => v

/-- Mutate the `length` property of an object by `delta`
(`wrapped.length = wrapped.length + delta`). -/
def tamperLength (v : JsValue) (delta : Int) : JsValue :=
  match v with
  | .obj kvs => .obj (kvs.map fun p => if p.1 = kLength then (p.1, addToNum delta p.2) else p)
  | w => w

/-- Distinctness of the keys of an association list. -/
def nodupKeys : List (List Char × JsValue) → Bool
  | [] => true
  | (k, _) :: rest => !(rest.any fun p => p.1 = k) && nodupKeys rest

mutual
/-- Values in the image of `JSON.parse`: no `undefined` anywhere and
object keys distinct.  These are exactly the modelled values that denote a
JavaScript value parsed from JSON text. -/
def canonical : JsValue → Bool
  | .undef => false
  | .null => true
  | .bool _ => true
  | .num _ => true
  | .str _ => true
  | .arr xs => canonicalItems xs
  | .obj kvs => nodupKeys kvs && canonicalFields kvs

/-- All array elements canonical. -/
def canonicalItems : List JsValue → Bool
  | [] => true
  | x :: xs => canonical x && canonicalItems xs

/-- All object field values canonical. -/
def canonicalFields : List (List Char × JsValue) → Bool
  | [] => true
  | (_, v) :: rest => canonical v && canonicalFields rest
end

/-- The listener table of an `EventEmitter`: `(eventName, listener)` pairs
in registration order; listeners are identified by an abstract tag. -/
structure EmitterState where
  listeners : List (String × Nat)

namespace NativeMessagingHandler

/-- The inherited `EventEmitter#on` (not overridden by the class): appends
the listener for the event and returns the emitter.  (`on` is a reserved
token in Lean, hence the prime.) -/
def on' (s : EmitterState) (eventName : String) (listener : Nat) : EmitterState :=
  { listeners := s.listeners ++ [(eventName, listener)] }

/-- The inherited `EventEmitter#emit` (not overridden): calls each listener
registered for the event, in registration order; modelled as the list of
listeners invoked. -/
def emit (s : EmitterState) (eventName : String) : List Nat :=
  (s.listeners.filter fun p => p.1 == eventName).map Prod.snd

/-- Override `addListener` (lines 319-321): returns `undefined`, touching
nothing.  The first component models the returned value (`none` =
`undefined`); the second the instance afterwards. -/
def addListener (s : EmitterState) (_eventName : String) (_listener : Nat) :
    Option Unit × EmitterState := (none, s)

/-- Override `eventNames` (lines 323-325). -/
def eventNames (s : EmitterState) : Option (List String) × EmitterState := (none, s)

/-- Override `getMaxListeners` (lines 327-329): always `0`. -/
def getMaxListeners (_s : EmitterState) : Nat := 0

/-- Override `listenerCount` (lines 332-334): always `0`. -/
def listenerCount (_s : EmitterState) (_eventName : String) : Nat := 0

/-- Override `listeners` (lines 337-339). -/
def listeners (s : EmitterState) (_eventName : String) :
    Option (List Nat) × EmitterState := (none, s)

/-- Override `off` (lines 342-344). -/
def off (s : EmitterState) (_eventName : String) (_listener : Nat) :
    Option Unit × EmitterState := (none, s)

/-- Override `once` (lines 347-349). -/
def once (s : EmitterState) (_eventName : String) (_listener : Nat) :
    Option Unit × EmitterState := (none, s)

/-- Override `prependListener` (lines 352-354). -/
def prependListener (s : EmitterState) (_eventName : String) (_listener : Nat) :
    Option Unit × EmitterState := (none, s)

/-- Override `prependOnceListener` (lines 357-359). -/
def prependOnceListener (s : EmitterState) (_eventName : String) (_listener : Nat) :
    Option Unit × EmitterState := (none, s)

/-- Override `rawListeners` (lines 362-364). -/
def rawListeners (s : EmitterState) (_eventName : String) :
    Option (List Nat) × EmitterState := (none, s)

/-- Override `removeAllListeners` (lines 367-369). -/
def removeAllListeners (s : EmitterState) (_eventName : String) :
    Option Unit × EmitterState := (none, s)

/-- Override `setMaxListeners` (lines 372-374). -/
def setMaxListeners (s : EmitterState) (_n : Nat) :
    Option Unit × EmitterState := (none, s)

end NativeMessagingHandler

/-- The C3 scenario buffer: four header bytes, an opening brace, and 9996
filler bytes — 10001 bytes whose candidate object never closes. -/
def cexIncompleteBuf : List Nat := 65 :: 65 :: 65 :: 65 :: 123 :: List.replicate 9996 97

/-- Handler state holding `cexIncompleteBuf`. -/
def cexIncompleteState : HandlerState :=
  { initialHandlerState with inputBuffer := cexIncompleteBuf }

/-- A 10001-byte buffer with no opening brace at all (the safety-valve
scenario of the repository's own test). -/
def cexValveBuf : List Nat := List.replicate 10001 97

/-- Handler state holding `cexValveBuf`. -/
def cexValveState : HandlerState :=
  { initialHandlerState with inputBuffer := cexValveBuf }

/-! ## Theorems -/

/-- `isWrappedMessage` holds for any value of the shape `wrapMessage`
produces. -/
theorem isWrappedMessage_wrapShape (L : Int) (m : JsValue) :
    isWrappedMessage (.obj [(kLength, .num L), (kMessage, m)]) = true := rfl

/-- On the wrap shape, `wrappedMessage` projects the message. -/
theorem wrappedMessage_wrapShape (L : Int) (m : JsValue) :
    wrappedMessage (.obj [(kLength, .num L), (kMessage, m)]) = m := rfl

/-- On the wrap shape, `wrappedLength` projects the length. -/
theorem wrappedLength_wrapShape (L : Int) (m : JsValue) :
    wrappedLength (.obj [(kLength, .num L), (kMessage, m)]) = L := rfl

/-- **C1.**  Round-trip: for every JSON-serializable message `m` (one on
which `wrapMessage` returns an envelope rather than throwing), unwrapping
the wrapped message returns `m` itself: the envelope's `length` field is
the UTF-8 byte length of the canonical JSON serialization of `m`, which
`unwrapMessage` recomputes identically. -/
theorem unwrap_wrapMessage (m w : JsValue) (h : wrapMessage m = some w) :
    unwrapMessage w = some m := by
  unfold wrapMessage at h
  cases hs : stringify m with
  | none => rw [hs] at h; exact absurd h (by simp)
  | some s =>
    rw [hs] at h
    have hw : w = .obj [(kLength, .num (utf8Len s)), (kMessage, m)] := by
      injection h.symm
    subst hw
    unfold unwrapMessage
    rw [isWrappedMessage_wrapShape, wrappedMessage_wrapShape, wrappedLength_wrapShape, hs]
    simp

/-- **C1 witness.**  Wrapping and unwrapping the message `{"a":1}`. -/
theorem unwrap_wrapMessage_witness :
    unwrapMessage (.obj [(kLength, .num 7), (kMessage, .obj [(['a'], .num 1)])]) =
      some (.obj [(['a'], .num 1)]) :=
  unwrap_wrapMessage (.obj [(['a'], .num 1)]) _
    (by simp [wrapMessage, stringify, stringifyFields, quoteChars, escapeChars, escapeChar,
          intChars, natDigits, natDigitsF, digitChar, joinComma, utf8Len, utf8Encode, charUtf8])

/-- **C2 counterexample.**  The claim says `unwrapMessage` never raises an
exception, naming `{length: n, message: undefined}` among the inputs.  On
that input the structural check passes, `JSON.stringify(undefined)` yields
the value `undefined`, and `Buffer.from(undefined)` throws a `TypeError`
(modelled by the result `none`): the call raises instead of returning the
invalid sentinel. -/
theorem unwrap_undef_message_throws :
    unwrapMessage (.obj [(kLength, .num 9), (kMessage, .undef)]) = none := by
  unfold unwrapMessage
  rw [isWrappedMessage_wrapShape, wrappedMessage_wrapShape]
  simp [stringify]

/-- **C2 (amended).**  `unwrapMessage` terminates on every input and
returns either the inner message or the invalid sentinel `null` — except on
inputs that pass the structural wrapped check but whose `message` field is
not JSON-serializable (such as `{length: n, message: undefined}`), where it
throws (`none`); the throw happens exactly in that case. -/
theorem unwrap_total_unless_unserializable (v : JsValue) :
    (unwrapMessage v = none ↔
      isWrappedMessage v = true ∧ stringify (wrappedMessage v) = none) ∧
    (∀ r, unwrapMessage v = some r → r = wrappedMessage v ∨ r = .null) := by
  constructor
  · constructor
    · intro h
      unfold unwrapMessage at h
      by_cases hw : isWrappedMessage v = true
      · rw [hw] at h
        simp only [Bool.not_true, Bool.false_eq_true, if_false] at h
        cases hs : stringify (wrappedMessage v) with
        | none => exact ⟨hw, rfl⟩
        | some s =>
          rw [hs] at h
          split at h <;> (try split at h) <;> simp_all
      · simp [hw] at h
    · rintro ⟨hw, hs⟩
      unfold unwrapMessage
      rw [hw]
      simp [hs]
  · intro r hr
    unfold unwrapMessage at hr
    by_cases hw : isWrappedMessage v = true
    · rw [hw] at hr
      simp only [Bool.not_true, Bool.false_eq_true, if_false] at hr
      cases hs : stringify (wrappedMessage v) with
      | none => rw [hs] at hr; simp at hr
      | some s =>
        rw [hs] at hr
        simp only [] at hr
        split at hr
        · right
          exact (Option.some_injective _ hr).symm
        · left
          exact (Option.some_injective _ hr).symm
    · simp only [Bool.not_eq_true] at hw
      rw [hw] at hr
      simp only [Bool.not_false, if_true] at hr
      right
      exact (Option.some_injective _ hr).symm

/-- **C2 witness.**  The amended theorem at `{length: 5, message: null}`:
the call returns normally (with the sentinel, since `"null"` has length 4,
not 5). -/
theorem unwrap_total_unless_unserializable_witness :
    (JsValue.null = wrappedMessage (.obj [(kLength, .num 5), (kMessage, .null)]) ∨
      JsValue.null = JsValue.null) :=
  (unwrap_total_unless_unserializable (.obj [(kLength, .num 5), (kMessage, .null)])).2
    .null
    (by unfold unwrapMessage
        rw [isWrappedMessage_wrapShape, wrappedMessage_wrapShape, wrappedLength_wrapShape]
        simp [stringify, utf8Len, utf8Encode, charUtf8, nullChars])

/-- **C9.**  Tamper detection: adding any nonzero `delta` to the `length`
field of a wrapped message makes `unwrapMessage` return the invalid
sentinel `null` (the recomputed byte length no longer matches). -/
theorem tampered_length_unwraps_null (m w : JsValue) (delta : Int)
    (h : wrapMessage m = some w) (hd : delta ≠ 0) :
    unwrapMessage (tamperLength w delta) = some .null := by
  unfold wrapMessage at h
  cases hs : stringify m with
  | none => rw [hs] at h; exact absurd h (by simp)
  | some s =>
    rw [hs] at h
    have hw : w = .obj [(kLength, .num (utf8Len s)), (kMessage, m)] := by
      injection h.symm
    subst hw
    have ht : tamperLength (.obj [(kLength, .num (utf8Len s)), (kMessage, m)]) delta =
        .obj [(kLength, .num (utf8Len s + delta)), (kMessage, m)] := by
      simp [tamperLength, addToNum, kLength, kMessage]
    rw [ht]
    unfold unwrapMessage
    rw [isWrappedMessage_wrapShape, wrappedMessage_wrapShape, wrappedLength_wrapShape, hs]
    have hne : ((utf8Len s : Int) != utf8Len s + delta) = true := by
      simp only [bne_iff_ne, ne_eq]
      omega
    simp [hne]

/-- **C9 witness.**  Tampering the wrap of `{}` (length 2) by `+1`. -/
theorem tampered_length_unwraps_null_witness :
    unwrapMessage (tamperLength (.obj [(kLength, .num 2), (kMessage, .obj [])]) 1) =
      some .null :=
  tampered_length_unwraps_null (.obj []) _ 1
    (by simp [wrapMessage, stringify, stringifyFields, joinComma, utf8Len, utf8Encode, charUtf8])
    (by decide)

/-- **C8.**  `isWrappedMessage` returns true exactly for the values the
claim describes: non-null objects with exactly two own enumerable keys, a
present numeric `length` field, and a present `message` field of any value
— and false for `null`, non-objects, objects missing either field, and
objects with extra fields (which fail the two-key count). -/
theorem isWrappedMessage_iff (v : JsValue) :
    isWrappedMessage v = true ↔ specIsWrapped v := by
  cases v <;>
    simp [isWrappedMessage, specIsWrapped, truthy, typeofIsObject, isNonNullObject,
      Bool.and_eq_true, beq_iff_eq, and_assoc]

/-- **C8 witness.**  The characterization at the two-field shape. -/
theorem isWrappedMessage_iff_witness :
    specIsWrapped (.obj [(kLength, .num 3), (kMessage, .bool false)]) :=
  (isWrappedMessage_iff (.obj [(kLength, .num 3), (kMessage, .bool false)])).mp rfl

/-- **C5.**  Strict framing and the 1 MiB bound, in two parts.  A declared
length strictly above `MESSAGE_SIZE_LIMIT` logs the oversized-message
error, discards the entire buffer (not just the header), resets the framing
state, and reports no message.  A declared length of exactly
`MESSAGE_SIZE_LIMIT` is not rejected: with the payload not yet buffered the
call reports no message, keeps the whole buffer, and records the expected
length. -/
theorem strict_oversize_bound :
    (∀ st : HandlerState, st.messageInProgress = false →
      HEADER_SIZE ≤ st.inputBuffer.length →
      MESSAGE_SIZE_LIMIT < readUInt32LE st.inputBuffer →
      processStandardMessage st =
        (false,
          { st with inputBuffer := [], messageInProgress := false,
                    expectedMessageLength := 0 },
          [.logTooLarge])) ∧
    (∀ st : HandlerState, st.messageInProgress = false →
      HEADER_SIZE ≤ st.inputBuffer.length →
      readUInt32LE st.inputBuffer = MESSAGE_SIZE_LIMIT →
      st.inputBuffer.length < HEADER_SIZE + MESSAGE_SIZE_LIMIT →
      processStandardMessage st =
        (false,
          { st with messageInProgress := true,
                    expectedMessageLength := MESSAGE_SIZE_LIMIT },
          [])) := by
  constructor
  · intro st hprog hlen hbig
    unfold processStandardMessage
    rw [if_neg (by omega), hprog]
    simp only [Bool.false_eq_true, if_false]
    unfold readMessageLength
    simp only [gt_iff_lt]
    rw [if_pos hbig]
    simp [resetBuffer, resetMessageState]
  · intro st hprog hlen hexact hwait
    unfold processStandardMessage
    rw [if_neg (by omega), hprog]
    simp only [Bool.false_eq_true, if_false]
    unfold readMessageLength
    rw [hexact]
    simp only [gt_iff_lt, lt_irrefl, if_false]
    rw [if_pos (by simpa using hwait)]

/-- **C5 witness.**  Concrete four-byte headers: 1,048,577 is rejected with
a full buffer reset; 1,048,576 is accepted and awaited. -/
theorem strict_oversize_bound_witness :
    processStandardMessage { initialHandlerState with inputBuffer := [1, 0, 16, 0] } =
      (false, { initialHandlerState with inputBuffer := [] }, [.logTooLarge]) ∧
    processStandardMessage { initialHandlerState with inputBuffer := [0, 0, 16, 0] } =
      (false,
        { initialHandlerState with
            inputBuffer := [0, 0, 16, 0], messageInProgress := true,
            expectedMessageLength := MESSAGE_SIZE_LIMIT },
        []) :=
  ⟨strict_oversize_bound.1 _ rfl (by decide) (by decide),
   strict_oversize_bound.2 _ rfl (by decide) (by decide) (by decide)⟩

/-- **C10.**  The listener-management and introspection overrides of
`NativeMessagingHandler` (source lines 318-374): every overridden method
returns `undefined` and neither registers nor removes a listener;
`listenerCount` and `getMaxListeners` always return `0`; the inherited `on`
and `emit` remain functional (`on` registers, `emit` invokes registered
listeners in order); and a consumer who subscribes through `once` or
`addListener` never receives any event (emitting after such a call invokes
exactly the listeners that were already there — none, from a fresh
instance). -/
theorem handler_listener_overrides :
    (∀ (s : EmitterState) (e : String) (l : Nat),
      NativeMessagingHandler.addListener s e l = (none, s) ∧
      NativeMessagingHandler.once s e l = (none, s) ∧
      NativeMessagingHandler.off s e l = (none, s) ∧
      NativeMessagingHandler.prependListener s e l = (none, s) ∧
      NativeMessagingHandler.prependOnceListener s e l = (none, s)) ∧
    (∀ (s : EmitterState) (e : String),
      NativeMessagingHandler.removeAllListeners s e = (none, s) ∧
      NativeMessagingHandler.listeners s e = (none, s) ∧
      NativeMessagingHandler.rawListeners s e = (none, s) ∧
      NativeMessagingHandler.listenerCount s e = 0) ∧
    (∀ (s : EmitterState) (n : Nat),
      NativeMessagingHandler.setMaxListeners s n = (none, s)) ∧
    (∀ s : EmitterState,
      NativeMessagingHandler.eventNames s = (none, s) ∧
      NativeMessagingHandler.getMaxListeners s = 0) ∧
    (∀ (s : EmitterState) (e : String) (l : Nat),
      NativeMessagingHandler.on' s e l = { listeners := s.listeners ++ [(e, l)] } ∧
      NativeMessagingHandler.emit (NativeMessagingHandler.on' s e l) e =
        NativeMessagingHandler.emit s e ++ [l]) ∧
    (∀ (e e' : String) (l : Nat),
      NativeMessagingHandler.emit
        (NativeMessagingHandler.addListener { listeners := [] } e l).2 e' = [] ∧
      NativeMessagingHandler.emit
        (NativeMessagingHandler.once { listeners := [] } e l).2 e' = []) := by
  refine ⟨fun s e l => ⟨rfl, rfl, rfl, rfl, rfl⟩,
          fun s e => ⟨rfl, rfl, rfl, rfl⟩,
          fun s n => rfl,
          fun s => ⟨rfl, rfl⟩,
          fun s e l => ⟨rfl, ?_⟩,
          fun e e' l => ⟨rfl, rfl⟩⟩
  simp [NativeMessagingHandler.emit, NativeMessagingHandler.on']

/-- ASCII byte lists decode byte-per-byte. -/
theorem utf8DecodeF_ascii :
    ∀ (fuel : Nat) (l : List Nat), l.length ≤ fuel → (∀ b ∈ l, b < 128) →
      utf8DecodeF fuel l = l.map Char.ofNat := by
  intro fuel
  induction fuel with
  | zero =>
    intro l hl _
    have : l = [] := List.length_eq_zero.mp (by omega)
    subst this
    rfl
  | succ fuel ih =>
    intro l hl hb
    cases l with
    | nil => rfl
    | cons b bs =>
      have hb0 : b < 128 := hb b (by simp)
      simp only [utf8DecodeF, if_pos hb0, List.map_cons]
      rw [ih bs (by simp at hl; omega) (fun x hx => hb x (by simp [hx]))]

/-- `utf8Decode` on an ASCII byte list. -/
theorem utf8Decode_ascii (l : List Nat) (hb : ∀ b ∈ l, b < 128) :
    utf8Decode l = l.map Char.ofNat :=
  utf8DecodeF_ascii l.length l le_rfl hb

/-- The scan loop ignores characters that are not quotes, backslashes or
braces: a run of `'a'`s leaves any non-escaping state unchanged. -/
theorem scanChars_replicate_a (n : Nat) :
    ∀ st : ScanState, st.escapeNext = false →
      scanChars (List.replicate n 'a') st = .inr st := by
  induction n with
  | zero => intro st _; rfl
  | succ n ih =>
    intro st hesc
    rw [List.replicate_succ]
    simp only [scanChars, hesc, Bool.false_eq_true, if_false]
    rw [if_neg (by decide), if_neg (by decide),
      if_neg (by simp), if_neg (by simp), ih st hesc]
    rfl

/-- `findIdx?` never finds `'{'` among `'a'`s. -/
theorem findIdx?_replicate_a :
    ∀ (n i : Nat), List.findIdx? (· = '{') (List.replicate n 'a') i = none := by
  intro n
  induction n with
  | zero => intro i; rfl
  | succ n ih =>
    intro i
    rw [List.replicate_succ, List.findIdx?_cons, if_neg (by decide)]
    exact ih (i + 1)

/-- A successful `findIdx?` for `'{'` points at a `'{'`. -/
theorem findIdx?_found :
    ∀ (l : List Char) (i j : Nat), List.findIdx? (· = '{') l i = some j →
      i ≤ j ∧ l[j - i]? = some '{' := by
  intro l
  induction l with
  | nil => intro i j h; simp [List.findIdx?] at h
  | cons c cs ih =>
    intro i j h
    rw [List.findIdx?_cons] at h
    by_cases hc : c = '{'
    · rw [if_pos (by simp [hc])] at h
      have hj : i = j := by simpa using h
      subst hj
      simp [hc]
    · rw [if_neg (by simp [hc])] at h
      obtain ⟨h1, h2⟩ := ih (i + 1) j h
      refine ⟨by omega, ?_⟩
      have : j - i = (j - (i + 1)) + 1 := by omega
      rw [this, List.getElem?_cons_succ]
      exact h2

/-- A successful `findOpenBrace` points at a `'{'` at or after the start. -/
theorem findOpenBrace_found (data : List Char) (start ob : Nat)
    (h : findOpenBrace data start = some ob) :
    start ≤ ob ∧ data[ob]? = some '{' := by
  unfold findOpenBrace at h
  cases hf : (data.drop start).findIdx? (· = '{') with
  | none => rw [hf] at h; simp at h
  | some j =>
    rw [hf] at h
    simp only [Option.map_some'] at h
    obtain ⟨_, h2⟩ := findIdx?_found _ 0 j hf
    have hob : ob = start + j := by simpa using h.symm
    subst hob
    refine ⟨by omega, ?_⟩
    rw [show start + j = start + j from rfl, ← List.getElem?_drop]
    simpa using h2

/-- One loop iteration that finds an opening brace whose scan runs out of
characters returns "incomplete" directly (the `return false` of line 240),
leaving the state untouched. -/
theorem robustLoop_incomplete (st : HandlerState) (data : List Char)
    (fuel start : Nat) (evs : List Ev) (ob : Nat)
    (h1 : start < data.length) (h2 : findOpenBrace data start = some ob)
    (h3 : (scanChars (data.drop ob) initScan).isRight = true) :
    robustLoop st data (fuel + 1) start evs = (.incomplete, st, evs) := by
  cases h3' : scanChars (data.drop ob) initScan with
  | inl rel => rw [h3'] at h3; simp [Sum.isRight] at h3
  | inr s => simp only [robustLoop, h1, if_true, h2, h3']

/-- A loop iteration that finds no opening brace (or has scanned past the
end) exits the `while` loop, leaving the state untouched. -/
theorem robustLoop_exhausted (st : HandlerState) (data : List Char)
    (fuel start : Nat) (evs : List Ev)
    (h2 : findOpenBrace data start = none) :
    robustLoop st data (fuel + 1) start evs = (.exhausted, st, evs) := by
  by_cases h1 : start < data.length
  · simp only [robustLoop, h1, if_true, h2]
  · simp only [robustLoop, h1, if_false]

/-- Every run of the robust scan loop ends in one of three ways: the
`while` loop exits without a message (state untouched); the loop returns
"incomplete" from a candidate whose scan ran out (state untouched, and
there is an opening brace whose scan has no balancing close); or a message
is found. -/
theorem robustLoop_cases :
    ∀ (fuel : Nat) (st : HandlerState) (data : List Char) (start : Nat) (evs : List Ev),
      (∃ evs', robustLoop st data fuel start evs = (.exhausted, st, evs')) ∨
      (∃ evs' ob, robustLoop st data fuel start evs = (.incomplete, st, evs') ∧
        data[ob]? = some '{' ∧ (scanChars (data.drop ob) initScan).isRight = true) ∨
      (∃ st' evs' k, robustLoop st data fuel start evs = (.found, st', evs') ∧
        0 < k ∧ st'.inputBuffer = st.inputBuffer.drop k) := by
  intro fuel
  induction fuel with
  | zero => intro st data start evs; exact Or.inl ⟨evs, rfl⟩
  | succ fuel ih =>
    intro st data start evs
    by_cases h1 : start < data.length
    · cases h2 : findOpenBrace data start with
      | none => exact Or.inl ⟨evs, robustLoop_exhausted st data fuel start evs h2⟩
      | some ob =>
        cases h3 : scanChars (data.drop ob) initScan with
        | inr s =>
          refine Or.inr (Or.inl ⟨evs, ob, ?_, (findOpenBrace_found _ _ _ h2).2, by rw [h3]; rfl⟩)
          exact robustLoop_incomplete st data fuel start evs ob h1 h2 (by rw [h3]; rfl)
        | inl rel =>
          cases h4 : jsonParse ((data.take (ob + rel)).drop ob) with
          | none =>
            have heq : robustLoop st data (fuel + 1) start evs =
                robustLoop st data fuel (ob + 1) (evs ++ [.logParseFailed]) := by
              simp only [robustLoop, h1, if_true, h2, h3, h4]
            rw [heq]
            exact ih st data (ob + 1) (evs ++ [.logParseFailed])
          | some msg =>
            cases h5 : handleParsedMessage msg with
            | none =>
              have heq : robustLoop st data (fuel + 1) start evs =
                  robustLoop st data fuel (ob + 1) (evs ++ [.logParseFailed]) := by
                simp only [robustLoop, h1, if_true, h2, h3, h4, h5]
              rw [heq]
              exact ih st data (ob + 1) (evs ++ [.logParseFailed])
            | some evs2 =>
              refine Or.inr (Or.inr
                ⟨{ st with inputBuffer :=
                    st.inputBuffer.drop (HEADER_SIZE + utf8Len (data.take (ob + rel))) },
                  evs ++ evs2, HEADER_SIZE + utf8Len (data.take (ob + rel)), ?_,
                  by simp [HEADER_SIZE], rfl⟩)
              simp only [robustLoop, h1, if_true, h2, h3, h4, h5]
    · exact Or.inl ⟨evs, by simp only [robustLoop, h1, if_false]⟩

/-- `processNextMessageRobust` on a buffer whose first candidate object is
incomplete: the call reports no message and leaves the buffer untouched
(only `accumulatedString` is refreshed), bypassing the safety valve. -/
theorem processRobust_incomplete (st : HandlerState) (ob : Nat)
    (h4 : ¬ st.inputBuffer.length < 4)
    (h1 : 0 < (utf8Decode (st.inputBuffer.drop 4)).length)
    (h2 : findOpenBrace (utf8Decode (st.inputBuffer.drop 4)) 0 = some ob)
    (h3 : (scanChars ((utf8Decode (st.inputBuffer.drop 4)).drop ob) initScan).isRight = true) :
    processNextMessageRobust st =
      (false, { st with accumulatedString := utf8Decode (st.inputBuffer.drop 4) }, []) := by
  simp only [processNextMessageRobust, h4, if_false]
  rw [robustLoop_incomplete _ _ _ 0 [] ob h1 h2 h3]

/-- `processNextMessageRobust` on an oversized buffer with no opening brace
after the header: the `while` loop exits without a message and the safety
valve clears everything. -/
theorem processRobust_valve (st : HandlerState)
    (h4 : ¬ st.inputBuffer.length < 4)
    (h2 : findOpenBrace (utf8Decode (st.inputBuffer.drop 4)) 0 = none)
    (hbig : 10000 < st.inputBuffer.length) :
    processNextMessageRobust st =
      (false, { st with inputBuffer := [], accumulatedString := [] },
        [.logBufferTooLarge]) := by
  simp only [processNextMessageRobust, h4, if_false]
  rw [robustLoop_exhausted _ _ _ 0 [] h2]
  simp only [hbig, if_true]
  rfl

/-- Scanning a candidate that starts with `'{'` opens one brace and
continues. -/
theorem scanChars_open_step (cs : List Char) :
    scanChars ('{' :: cs) initScan =
      bumpIdx (scanChars cs { initScan with braceCount := initScan.braceCount + 1 }) := rfl

/-- The bytes after the header of the C3 buffer decode to a `'{'` followed
by 9996 `'a'`s. -/
theorem cexIncomplete_data :
    utf8Decode (cexIncompleteBuf.drop 4) = '{' :: List.replicate 9996 'a' := by
  have hd : cexIncompleteBuf.drop 4 = 123 :: List.replicate 9996 97 := rfl
  rw [hd, utf8Decode_ascii]
  · rw [List.map_cons, List.map_replicate]
  · intro b hb
    rcases List.mem_cons.mp hb with h | h
    · omega
    · rcases List.mem_replicate.mp h with ⟨_, h⟩
      omega

/-- The C3 buffer holds 10001 bytes. -/
theorem cexIncompleteBuf_length : cexIncompleteBuf.length = 10001 := by
  simp only [cexIncompleteBuf, List.length_cons, List.length_replicate]

/-- Full evaluation of the robust strategy on the C3 buffer. -/
theorem robust_incomplete_eval :
    processNextMessageRobust cexIncompleteState =
      (false,
        { cexIncompleteState with accumulatedString := '{' :: List.replicate 9996 'a' },
        []) := by
  have hbuf : cexIncompleteState.inputBuffer = cexIncompleteBuf := rfl
  have hthis := processRobust_incomplete cexIncompleteState 0
    (by rw [hbuf, cexIncompleteBuf_length]; omega)
    (by rw [hbuf, cexIncomplete_data]
        simp only [List.length_cons]
        omega)
    (by rw [hbuf, cexIncomplete_data]
        unfold findOpenBrace
        rw [List.drop_zero, List.findIdx?_cons, if_pos (by decide)]
        rfl)
    (by rw [hbuf, cexIncomplete_data, List.drop_zero, scanChars_open_step,
          scanChars_replicate_a _ _ rfl]
        rfl)
  rw [hbuf, cexIncomplete_data] at hthis
  exact hthis

/-- **C3 counterexample.**  A call that extracts no message from a buffer
of 10001 bytes (more than 10,000) containing an opening brace whose object
is still incomplete does **not** discard the buffer: the incomplete-JSON
`return false` (line 240) runs before the safety valve (line 275), so the
entire 10001-byte buffer is left in place, contradicting the claim that the
buffer is cleared in this situation. -/
theorem robust_incomplete_skips_valve :
    (processNextMessageRobust cexIncompleteState).1 = false ∧
    10000 < cexIncompleteState.inputBuffer.length ∧
    (processNextMessageRobust cexIncompleteState).2.1.inputBuffer =
      cexIncompleteState.inputBuffer ∧
    cexIncompleteState.inputBuffer ≠ [] := by
  have hbuf : cexIncompleteState.inputBuffer = cexIncompleteBuf := rfl
  refine ⟨by rw [robust_incomplete_eval], ?_, by rw [robust_incomplete_eval], ?_⟩
  · rw [hbuf, cexIncompleteBuf_length]; omega
  · rw [hbuf]; simp only [cexIncompleteBuf]; exact List.cons_ne_nil _ _

/-- **C3 (amended).**  When the tolerant strategy extracts no message from
a buffer longer than 10,000 bytes, either the safety valve has discarded
the entire buffer (and the accumulated text), or the call returned early
because a candidate object — an opening brace whose scan finds no balancing
close — is still incomplete, in which case the buffer is left untouched to
await more data. -/
theorem robust_valve_or_incomplete (st : HandlerState)
    (hbig : 10000 < st.inputBuffer.length)
    (hfalse : (processNextMessageRobust st).1 = false) :
    ((processNextMessageRobust st).2.1.inputBuffer = [] ∧
     (processNextMessageRobust st).2.1.accumulatedString = []) ∨
    ((processNextMessageRobust st).2.1.inputBuffer = st.inputBuffer ∧
     ∃ ob, (utf8Decode (st.inputBuffer.drop 4))[ob]? = some '{' ∧
       (scanChars ((utf8Decode (st.inputBuffer.drop 4)).drop ob) initScan).isRight = true) := by
  have h4 : ¬ st.inputBuffer.length < 4 := by omega
  rcases robustLoop_cases ((utf8Decode (st.inputBuffer.drop 4)).length + 1)
      { st with accumulatedString := utf8Decode (st.inputBuffer.drop 4) }
      (utf8Decode (st.inputBuffer.drop 4)) 0 [] with
    ⟨evs', hloop⟩ | ⟨evs', ob, hloop, hob, hscan⟩ | ⟨st', evs', k, hloop, hk, hdrop⟩
  · left
    simp only [processNextMessageRobust, h4, if_false]
    rw [hloop]
    simp only [hbig, if_true]
    refine ⟨?_, ?_⟩ <;> trivial
  · right
    have heval : processNextMessageRobust st =
        (false, { st with accumulatedString := utf8Decode (st.inputBuffer.drop 4) }, evs') := by
      simp only [processNextMessageRobust, h4, if_false]
      rw [hloop]
    rw [heval]
    exact ⟨rfl, ob, hob, hscan⟩
  · exfalso
    have heval : (processNextMessageRobust st).1 = true := by
      simp only [processNextMessageRobust, h4, if_false]
      rw [hloop]
    rw [heval] at hfalse
    simp at hfalse

/-- `findOpenBrace` finds nothing among `'a'`s. -/
theorem findOpenBrace_replicate_a (n start : Nat) :
    findOpenBrace (List.replicate n 'a') start = none := by
  unfold findOpenBrace
  rw [List.drop_replicate, findIdx?_replicate_a]
  rfl

/-- The bytes after the header of the valve buffer decode to 9997 `'a'`s. -/
theorem cexValve_data : utf8Decode (cexValveBuf.drop 4) = List.replicate 9997 'a' := by
  have hd : cexValveBuf.drop 4 = List.replicate 9997 97 := by
    simp only [cexValveBuf, List.drop_replicate]
  rw [hd, utf8Decode_ascii]
  · rw [List.map_replicate]
  · intro b hb
    rcases List.mem_replicate.mp hb with ⟨_, h⟩
    omega

/-- Full evaluation of the robust strategy on the valve buffer: the safety
valve clears everything and logs. -/
theorem robust_valve_eval :
    processNextMessageRobust cexValveState =
      (false, { cexValveState with inputBuffer := [], accumulatedString := [] },
        [.logBufferTooLarge]) := by
  have hbuf : cexValveState.inputBuffer = cexValveBuf := rfl
  have hlen : cexValveBuf.length = 10001 := by
    simp only [cexValveBuf, List.length_replicate]
  exact processRobust_valve cexValveState
    (by rw [hbuf, hlen]; omega)
    (by rw [hbuf, cexValve_data]; exact findOpenBrace_replicate_a 9997 0)
    (by rw [hbuf, hlen]; omega)

/-- **C3 witness.**  The amended theorem applied to the 10001-byte bufferful
of `'a'`s: the run extracts nothing, and (first disjunct) the valve clears
the buffer and the accumulated text. -/
theorem robust_valve_or_incomplete_witness :
    ((processNextMessageRobust cexValveState).2.1.inputBuffer = [] ∧
     (processNextMessageRobust cexValveState).2.1.accumulatedString = []) ∨
    ((processNextMessageRobust cexValveState).2.1.inputBuffer = cexValveState.inputBuffer ∧
     ∃ ob, (utf8Decode (cexValveState.inputBuffer.drop 4))[ob]? = some '{' ∧
       (scanChars ((utf8Decode (cexValveState.inputBuffer.drop 4)).drop ob)
         initScan).isRight = true) :=
  robust_valve_or_incomplete cexValveState
    (by rw [show cexValveState.inputBuffer = cexValveBuf from rfl]
        simp only [cexValveBuf, List.length_replicate]
        omega)
    (by rw [robust_valve_eval])

/-- `readMessageLength` leaves the buffer alone when it accepts the
length. -/
theorem readMessageLength_true (st st1 : HandlerState) (evs : List Ev)
    (h : readMessageLength st = (true, st1, evs)) :
    st1.inputBuffer = st.inputBuffer ∧ evs = [] := by
  simp only [readMessageLength] at h
  split at h
  · simp at h
  · have h2 := congrArg (fun p => p.2.1) h
    have h3 := congrArg (fun p => p.2.2) h
    simp only [] at h2 h3
    constructor
    · rw [← h2]
    · rw [← h3]

/-- A successful strict-strategy call consumes at least the header from the
buffer: the buffer strictly shrinks. -/
theorem processStandard_true_shrinks (st st' : HandlerState) (evs : List Ev)
    (h : processStandardMessage st = (true, st', evs)) :
    st'.inputBuffer.length < st.inputBuffer.length := by
  unfold processStandardMessage at h
  by_cases h1 : st.inputBuffer.length < HEADER_SIZE
  · rw [if_pos h1] at h; simp at h
  · rw [if_neg h1] at h
    rcases hstep : (if st.messageInProgress = true then (true, st, ([] : List Ev))
        else readMessageLength st) with ⟨ok, st1, evs1⟩
    rw [hstep] at h
    cases ok with
    | false => simp at h
    | true =>
      have hbuf1 : st1.inputBuffer = st.inputBuffer := by
        by_cases hm : st.messageInProgress = true
        · rw [if_pos hm] at hstep
          have := congrArg (fun p => p.2.1) hstep
          simp at this
          rw [← this]
        · rw [if_neg hm] at hstep
          exact (readMessageLength_true st st1 evs1 hstep).1
      simp only [] at h
      by_cases h2 : st1.inputBuffer.length < HEADER_SIZE + st1.expectedMessageLength
      · rw [if_pos h2] at h; simp at h
      · rw [if_neg h2] at h
        have hst' : st' = resetMessageState
            { st1 with inputBuffer :=
                st1.inputBuffer.drop (HEADER_SIZE + st1.expectedMessageLength) } := by
          have := congrArg (fun p => p.2.1) h
          simpa using this.symm
        rw [hst']
        simp only [resetMessageState, List.length_drop]
        rw [hbuf1] at h2 ⊢
        simp only [HEADER_SIZE] at h1 h2 ⊢
        omega

/-- A successful robust-strategy call strictly shrinks the buffer. -/
theorem processRobust_true_shrinks (st st' : HandlerState) (evs : List Ev)
    (h : processNextMessageRobust st = (true, st', evs)) :
    st'.inputBuffer.length < st.inputBuffer.length := by
  unfold processNextMessageRobust at h
  by_cases h4 : st.inputBuffer.length < 4
  · rw [if_pos h4] at h; simp at h
  · rw [if_neg h4] at h
    simp only [] at h
    rcases robustLoop_cases ((utf8Decode (st.inputBuffer.drop 4)).length + 1)
        { st with accumulatedString := utf8Decode (st.inputBuffer.drop 4) }
        (utf8Decode (st.inputBuffer.drop 4)) 0 [] with
      ⟨evs', hloop⟩ | ⟨evs', ob, hloop, hob, hscan⟩ | ⟨st'', evs', k, hloop, hk, hdrop⟩
    · rw [hloop] at h
      split at h <;> (try split at h) <;> simp_all
    · rw [hloop] at h
      simp at h
    · rw [hloop] at h
      have hst' : st' = st'' := by
        have := congrArg (fun p => p.2.1) h
        simpa using this.symm
      rw [hst', hdrop]
      simp only [List.length_drop]
      omega

/-- A successful call of the configured strategy strictly shrinks the
buffer (both strategies). -/
theorem processNextMessage_true_shrinks (st st' : HandlerState) (evs : List Ev)
    (h : processNextMessage st = (true, st', evs)) :
    st'.inputBuffer.length < st.inputBuffer.length := by
  unfold processNextMessage at h
  by_cases hr : st.useRobustParsing = true
  · rw [if_pos hr] at h; exact processRobust_true_shrinks st st' evs h
  · rw [if_neg hr] at h; exact processStandard_true_shrinks st st' evs h

/-- With fuel exceeding the buffer length, the fueled drain loop realizes
the spec's repeat-until-no-message loop. -/
theorem drainLoop_drains :
    ∀ (fuel : Nat) (st : HandlerState), st.inputBuffer.length < fuel →
      Drains st (drainLoop fuel st).1 (drainLoop fuel st).2 := by
  intro fuel
  induction fuel with
  | zero => intro st h; exact absurd h (Nat.not_lt_zero _)
  | succ fuel ih =>
    intro st hlt
    rcases hpm : processNextMessage st with ⟨found, st', evs⟩
    cases found with
    | false =>
      have heval : drainLoop (fuel + 1) st = (st', evs) := by
        simp only [drainLoop, hpm]
      rw [heval]
      exact Drains.stop hpm
    | true =>
      rcases hd : drainLoop fuel st' with ⟨st2, evs2⟩
      have heval : drainLoop (fuel + 1) st = (st2, evs ++ evs2) := by
        simp only [drainLoop, hpm, hd]
      rw [heval]
      have hsh := processNextMessage_true_shrinks st st' evs hpm
      have hih := ih st' (by omega)
      rw [hd] at hih
      exact Drains.step hpm hih

/-- **C4.**  `handleIncomingChunk` appends the chunk to the input buffer
and then realizes the spec's driving loop `Drains`: the configured strategy
is invoked repeatedly, each extracted message's events are emitted before
the next invocation (so several messages queued in one chunk are all
drained, in byte-stream order), and the call returns exactly when an
invocation reports that no message was extracted. -/
theorem handleIncomingChunk_drains (st : HandlerState) (chunk : List Nat) :
    Drains { st with inputBuffer := st.inputBuffer ++ chunk }
      (handleIncomingChunk st chunk).1 (handleIncomingChunk st chunk).2 := by
  unfold handleIncomingChunk
  exact drainLoop_drains _ _ (by omega)

/-- `readUInt32LE` reads only the first four bytes. -/
theorem readUInt32LE_append (l t : List Nat) (h : 4 ≤ l.length) :
    readUInt32LE (l ++ t) = readUInt32LE l := by
  unfold readUInt32LE
  rw [List.getD_append _ _ _ 0 (by omega), List.getD_append _ _ _ 1 (by omega),
    List.getD_append _ _ _ 2 (by omega), List.getD_append _ _ _ 3 (by omega)]

/-- Reading back a little-endian encoded 32-bit length. -/
theorem readUInt32LE_uint32LE (n : Nat) (rest : List Nat) (h : n < 4294967296) :
    readUInt32LE (uint32LE n ++ rest) = n := by
  have hred : readUInt32LE (uint32LE n ++ rest) =
      n % 256 + 256 * (n / 256 % 256) + 65536 * (n / 65536 % 256) +
        16777216 * (n / 16777216 % 256) := rfl
  rw [hred]
  omega

/-- The encoded header is four bytes. -/
theorem uint32LE_length (n : Nat) : (uint32LE n).length = 4 := rfl

/-- A drain iteration whose strategy call reports no message stops with
that call's state and events (any positive fuel). -/
theorem drainLoop_stop (fuel : Nat) (s s' : HandlerState) (evs : List Ev)
    (h1 : 1 ≤ fuel) (h : processNextMessage s = (false, s', evs)) :
    drainLoop fuel s = (s', evs) := by
  cases fuel with
  | zero => omega
  | succ fuel => simp only [drainLoop, h]

/-- Unfolding `handleIncomingChunk` to the fueled drain loop. -/
theorem handleIncomingChunk_eq (st : HandlerState) (chunk : List Nat) :
    handleIncomingChunk st chunk =
      drainLoop ((st.inputBuffer ++ chunk).length + 1)
        { st with inputBuffer := st.inputBuffer ++ chunk } := rfl

/-- The strict strategy on a proper prefix of a framed message: no bytes
are consumed, no events are emitted; once the header is visible the
expected length is recorded. -/
theorem processStandard_wait (st : HandlerState) (payload t : List Nat) (n : Nat)
    (hflag : st.messageInProgress = false ∨
      (st.messageInProgress = true ∧ st.expectedMessageLength = n))
    (hpre : st.inputBuffer ++ t = uint32LE n ++ payload)
    (hlim : n ≤ MESSAGE_SIZE_LIMIT)
    (hlt : st.inputBuffer.length < HEADER_SIZE + n) :
    ∃ st', processStandardMessage st = (false, st', []) ∧
      st'.inputBuffer = st.inputBuffer ∧
      st'.useRobustParsing = st.useRobustParsing ∧
      st'.accumulatedString = st.accumulatedString ∧
      (st'.messageInProgress = false ∨
        (st'.messageInProgress = true ∧ st'.expectedMessageLength = n)) := by
  by_cases h4 : st.inputBuffer.length < HEADER_SIZE
  · refine ⟨st, ?_, rfl, rfl, rfl, hflag⟩
    unfold processStandardMessage
    rw [if_pos h4]
  · have hread : readUInt32LE st.inputBuffer = n := by
      rw [← readUInt32LE_append st.inputBuffer t (by simp [HEADER_SIZE] at h4; omega), hpre]
      exact readUInt32LE_uint32LE n payload (by
        simp only [MESSAGE_SIZE_LIMIT] at hlim; omega)
    rcases hflag with hflag | ⟨hflag, hexp⟩
    · refine ⟨{ st with messageInProgress := true, expectedMessageLength := n },
        ?_, rfl, rfl, rfl, Or.inr ⟨rfl, rfl⟩⟩
      unfold processStandardMessage
      rw [if_neg h4, hflag]
      simp only [Bool.false_eq_true, if_false]
      unfold readMessageLength
      rw [hread]
      simp only [gt_iff_lt]
      rw [if_neg (by omega)]
      simp only []
      rw [if_pos (by simpa using hlt)]
    · refine ⟨st, ?_, rfl, rfl, rfl, Or.inr ⟨hflag, hexp⟩⟩
      unfold processStandardMessage
      rw [if_neg h4, hflag]
      simp only [if_true]
      rw [hexp, if_pos (by simpa using hlt)]

/-- The strict strategy on a fully buffered framed message: the payload is
sliced out exactly, parsed, and emitted; the consumed bytes leave the
buffer and the framing state resets. -/
theorem processStandard_complete (st : HandlerState) (payload : List Nat)
    (n : Nat) (m : JsValue)
    (hflag : st.messageInProgress = false ∨
      (st.messageInProgress = true ∧ st.expectedMessageLength = n))
    (heq : st.inputBuffer = uint32LE n ++ payload)
    (hn : payload.length = n) (hlim : n ≤ MESSAGE_SIZE_LIMIT)
    (hparse : jsonParse (utf8Decode payload) = some m)
    (hwrap : isWrappedMessage m = false) :
    processStandardMessage st =
      (true,
        { st with inputBuffer := [], messageInProgress := false,
                  expectedMessageLength := 0 },
        [.message m]) := by
  have hlen : st.inputBuffer.length = 4 + n := by
    rw [heq, List.length_append, uint32LE_length, hn]
  have hread : readUInt32LE st.inputBuffer = n := by
    rw [heq]
    exact readUInt32LE_uint32LE n payload (by
      simp only [MESSAGE_SIZE_LIMIT] at hlim; omega)
  have hsum : HEADER_SIZE + n = (uint32LE n).length + payload.length := by
    simp only [uint32LE_length, hn, HEADER_SIZE]
  have hslice : (st.inputBuffer.take (HEADER_SIZE + n)).drop HEADER_SIZE = payload := by
    rw [heq, hsum, List.take_append, List.take_length,
      show HEADER_SIZE = (uint32LE n).length from rfl, List.drop_left]
  have hdropall : st.inputBuffer.drop (HEADER_SIZE + n) = [] := by
    rw [heq, hsum, List.drop_append, List.drop_length]
  have hemit : parseAndEmitMessage payload = (true, [.message m]) := by
    unfold parseAndEmitMessage
    rw [hparse]
    simp [handleParsedMessage, hwrap]
  rcases hflag with hflag | ⟨hflag, hexp⟩
  · unfold processStandardMessage
    rw [if_neg (by simp only [HEADER_SIZE]; omega), hflag]
    simp only [Bool.false_eq_true, if_false]
    unfold readMessageLength
    rw [hread]
    simp only [gt_iff_lt]
    rw [if_neg (by omega)]
    simp only []
    rw [if_neg (by simp only [HEADER_SIZE] at hlen ⊢; omega)]
    rw [show (({ st with expectedMessageLength := n, messageInProgress := true } :
          HandlerState).inputBuffer.take (HEADER_SIZE + n)).drop HEADER_SIZE = payload
        from hslice, hemit]
    simp only [resetMessageState]
    rw [show ({ st with expectedMessageLength := n, messageInProgress := true } :
        HandlerState).inputBuffer.drop (HEADER_SIZE + n) = [] from hdropall]
    simp
  · unfold processStandardMessage
    rw [if_neg (by simp only [HEADER_SIZE]; omega), hflag]
    simp only [if_true]
    rw [hexp]
    rw [if_neg (by simp only [HEADER_SIZE] at hlen ⊢; omega)]
    rw [hslice, hemit]
    simp only [resetMessageState]
    rw [hdropall]
    simp

/-- The chunk fold threads its event accumulator on the left. -/
theorem runChunks_acc :
    ∀ (cs : List (List Nat)) (st : HandlerState) (evs0 : List Ev),
      List.foldl
        (fun acc chunk =>
          let (st', evs') := handleIncomingChunk acc.1 chunk
          (st', acc.2 ++ evs'))
        (st, evs0) cs =
      ((runChunks st cs).1, evs0 ++ (runChunks st cs).2) := by
  intro cs
  induction cs with
  | nil => intro st evs0; simp [runChunks]
  | cons c cs ih =>
    intro st evs0
    rcases hc : handleIncomingChunk st c with ⟨st1, evs1⟩
    have hl : runChunks st (c :: cs) =
        ((runChunks st1 cs).1, evs1 ++ (runChunks st1 cs).2) := by
      unfold runChunks
      rw [List.foldl_cons]
      simp only [hc]
      exact ih st1 evs1
    rw [List.foldl_cons]
    simp only [hc]
    rw [ih st1 (evs0 ++ evs1), hl]
    simp [List.append_assoc]

/-- One chunk-delivery step of `runChunks`. -/
theorem runChunks_cons (st : HandlerState) (c : List Nat) (cs : List (List Nat)) :
    runChunks st (c :: cs) =
      ((runChunks (handleIncomingChunk st c).1 cs).1,
        (handleIncomingChunk st c).2 ++ (runChunks (handleIncomingChunk st c).1 cs).2) := by
  unfold runChunks
  rw [List.foldl_cons]
  rcases hc : handleIncomingChunk st c with ⟨st1, evs1⟩
  simp only [hc]
  exact runChunks_acc cs st1 evs1

/-- Delivering a chunk that still leaves the frame incomplete: the strict
handler appends it, waits, and emits nothing. -/
theorem strict_chunk_wait (st : HandlerState) (c payload t : List Nat) (n : Nat)
    (hrb : st.useRobustParsing = false)
    (hflag : st.messageInProgress = false ∨
      (st.messageInProgress = true ∧ st.expectedMessageLength = n))
    (hpre : (st.inputBuffer ++ c) ++ t = uint32LE n ++ payload)
    (hlim : n ≤ MESSAGE_SIZE_LIMIT)
    (hlt : (st.inputBuffer ++ c).length < HEADER_SIZE + n) :
    ∃ st', handleIncomingChunk st c = (st', []) ∧
      st'.inputBuffer = st.inputBuffer ++ c ∧
      st'.useRobustParsing = false ∧
      (st'.messageInProgress = false ∨
        (st'.messageInProgress = true ∧ st'.expectedMessageLength = n)) := by
  obtain ⟨buf, mip, eml, acc, urp⟩ := st
  simp only [] at hrb hflag hpre hlt ⊢
  subst hrb
  obtain ⟨st', hps, hbuf, hrb', hacc, hflag'⟩ :=
    processStandard_wait ⟨buf ++ c, mip, eml, acc, false⟩ payload t n hflag hpre hlim hlt
  have hpm : processNextMessage ⟨buf ++ c, mip, eml, acc, false⟩ = (false, st', []) := by
    unfold processNextMessage
    simp only [Bool.false_eq_true, if_false]
    exact hps
  refine ⟨st', ?_, hbuf, hrb', hflag'⟩
  rw [handleIncomingChunk_eq]
  exact drainLoop_stop _ _ _ _ (by omega) hpm

/-- Delivering the chunk that completes the frame: the strict handler emits
exactly one message event with the parsed payload and ends with an empty
buffer and reset framing state. -/
theorem strict_chunk_complete (st : HandlerState) (c payload : List Nat)
    (n : Nat) (m : JsValue)
    (hrb : st.useRobustParsing = false)
    (hflag : st.messageInProgress = false ∨
      (st.messageInProgress = true ∧ st.expectedMessageLength = n))
    (heq : st.inputBuffer ++ c = uint32LE n ++ payload)
    (hn : payload.length = n) (hlim : n ≤ MESSAGE_SIZE_LIMIT)
    (hparse : jsonParse (utf8Decode payload) = some m)
    (hwrap : isWrappedMessage m = false) :
    handleIncomingChunk st c =
      ({ st with inputBuffer := [], messageInProgress := false,
                 expectedMessageLength := 0 },
        [.message m]) := by
  obtain ⟨buf, mip, eml, acc, urp⟩ := st
  simp only [] at hrb hflag heq ⊢
  subst hrb
  have hlen : (buf ++ c).length = 4 + n := by
    have := congrArg List.length heq
    simpa [uint32LE_length, hn] using this
  have hps := processStandard_complete ⟨buf ++ c, mip, eml, acc, false⟩
    payload n m hflag heq hn hlim hparse hwrap
  have hpm : processNextMessage ⟨buf ++ c, mip, eml, acc, false⟩ =
      (true, ⟨[], false, 0, acc, false⟩, [.message m]) := by
    unfold processNextMessage
    simp only [Bool.false_eq_true, if_false]
    exact hps
  have hstop : processNextMessage ⟨[], false, 0, acc, false⟩ =
      (false, ⟨[], false, 0, acc, false⟩, []) := by
    unfold processNextMessage
    simp only [Bool.false_eq_true, if_false]
    unfold processStandardMessage
    rw [if_pos (by simp [HEADER_SIZE])]
  rw [handleIncomingChunk_eq]
  simp only [drainLoop, hpm]
  rw [drainLoop_stop ((buf ++ c).length) _ _ _ (by omega) hstop]
  simp

/-- Delivering only empty chunks to an idle handler changes nothing. -/
theorem runChunks_empty_chunks :
    ∀ (cs : List (List Nat)) (st : HandlerState), cs.flatten = [] →
      st.inputBuffer = [] → st.useRobustParsing = false →
      runChunks st cs = (st, []) := by
  intro cs
  induction cs with
  | nil => intro st _ _ _; rfl
  | cons c cs ih =>
    intro st hfl hbuf hrb
    rw [List.flatten_cons] at hfl
    obtain ⟨hc, hcs⟩ := List.append_eq_nil.mp hfl
    subst hc
    obtain ⟨buf, mip, eml, acc, urp⟩ := st
    simp only [] at hbuf hrb
    subst hbuf
    subst hrb
    have hstep : handleIncomingChunk ⟨[], mip, eml, acc, false⟩ [] =
        (⟨[], mip, eml, acc, false⟩, []) := rfl
    rw [runChunks_cons, hstep]
    rw [ih _ hcs rfl rfl]
    simp

/-- Delivering a complete framed message split across any chunk sequence to
a strict handler holding a proper prefix: exactly one message event is
emitted and the buffer ends empty. -/
theorem strict_run_aux :
    ∀ (chunks : List (List Nat)) (st : HandlerState) (payload : List Nat)
      (n : Nat) (m : JsValue),
      st.useRobustParsing = false →
      (st.messageInProgress = false ∨
        (st.messageInProgress = true ∧ st.expectedMessageLength = n)) →
      st.inputBuffer ++ chunks.flatten = uint32LE n ++ payload →
      st.inputBuffer.length < HEADER_SIZE + n →
      payload.length = n → n ≤ MESSAGE_SIZE_LIMIT →
      jsonParse (utf8Decode payload) = some m →
      isWrappedMessage m = false →
      (runChunks st chunks).2 = [.message m] ∧
      (runChunks st chunks).1.inputBuffer = [] := by
  intro chunks
  induction chunks with
  | nil =>
    intro st payload n m _ _ hstream hlt hn _ _ _
    exfalso
    have : st.inputBuffer = uint32LE n ++ payload := by simpa using hstream
    have hlen := congrArg List.length this
    rw [List.length_append, uint32LE_length, hn] at hlen
    simp only [HEADER_SIZE] at hlt
    omega
  | cons c cs ih =>
    intro st payload n m hrb hflag hstream hlt hn hlim hparse hwrap
    have hfl : (c :: cs).flatten = c ++ cs.flatten := by simp
    by_cases hcase : (st.inputBuffer ++ c).length < HEADER_SIZE + n
    · obtain ⟨st', hstep, hbuf', hrb', hflag'⟩ :=
        strict_chunk_wait st c payload cs.flatten n hrb hflag
          (by rw [List.append_assoc]; rw [hfl] at hstream; simpa using hstream)
          hlim hcase
      rw [runChunks_cons, hstep]
      simp only []
      have hrec := ih st' payload n m hrb' hflag'
        (by rw [hbuf', List.append_assoc]; rw [hfl] at hstream; simpa using hstream)
        (by rw [hbuf']; exact hcase) hn hlim hparse hwrap
      exact ⟨by rw [hrec.1, List.nil_append], hrec.2⟩
    · have hslen := congrArg List.length hstream
      rw [hfl] at hslen
      simp only [List.length_append, uint32LE_length] at hslen
      have hflat0 : cs.flatten.length = 0 := by
        simp only [HEADER_SIZE] at hcase
        rw [List.length_append] at hcase
        omega
      have hflatnil : cs.flatten = [] := List.length_eq_zero.mp hflat0
      have heq' : st.inputBuffer ++ c = uint32LE n ++ payload := by
        rw [hfl, hflatnil] at hstream
        simpa using hstream
      have hstep := strict_chunk_complete st c payload n m hrb hflag heq' hn hlim
        hparse hwrap
      rw [runChunks_cons, hstep]
      simp only []
      rw [runChunks_empty_chunks cs _ hflatnil (by simp) (by simp [hrb])]
      simp

/-- A strict handler holding a proper prefix of a framed message, fed more
proper-prefix chunks: nothing is consumed and nothing is emitted. -/
theorem strict_prefix_aux :
    ∀ (chunks : List (List Nat)) (st : HandlerState) (payload t : List Nat) (n : Nat),
      st.useRobustParsing = false →
      (st.messageInProgress = false ∨
        (st.messageInProgress = true ∧ st.expectedMessageLength = n)) →
      (st.inputBuffer ++ chunks.flatten) ++ t = uint32LE n ++ payload →
      (st.inputBuffer ++ chunks.flatten).length < HEADER_SIZE + n →
      n ≤ MESSAGE_SIZE_LIMIT →
      (runChunks st chunks).1.inputBuffer = st.inputBuffer ++ chunks.flatten ∧
      (runChunks st chunks).2 = [] := by
  intro chunks
  induction chunks with
  | nil =>
    intro st payload t n _ _ _ _ _
    constructor
    · show st.inputBuffer = st.inputBuffer ++ [].flatten
      simp
    · rfl
  | cons c cs ih =>
    intro st payload t n hrb hflag hstream hlt hlim
    have hfl : (c :: cs).flatten = c ++ cs.flatten := by simp
    rw [hfl] at hstream hlt
    obtain ⟨st', hstep, hbuf', hrb', hflag'⟩ :=
      strict_chunk_wait st c payload (cs.flatten ++ t) n hrb hflag
        (by simp only [List.append_assoc] at hstream ⊢; exact hstream)
        hlim
        (by simp only [List.length_append] at hlt ⊢; omega)
    rw [runChunks_cons, hstep]
    simp only []
    have hrec := ih st' payload t n hrb' hflag'
      (by rw [hbuf']
          simp only [List.append_assoc] at hstream ⊢
          exact hstream)
      (by rw [hbuf']
          simp only [List.length_append] at hlt ⊢
          omega)
      hlim
    refine ⟨?_, by rw [hrec.2, List.nil_append]⟩
    rw [hrec.1, hbuf', hfl, List.append_assoc]

/-- **C6.**  Strict framing of a single message with header declaring `n`
bytes and an `n`-byte JSON payload, delivered split arbitrarily across
chunk boundaries: the whole delivery emits exactly one message event with
the parsed payload, the buffer is empty afterward, and while fewer than
`header + n` bytes have arrived no bytes are consumed (the buffer holds
exactly the bytes delivered so far) and nothing is emitted. -/
theorem strict_split_delivery (payload : List Nat) (n : Nat) (m : JsValue)
    (chunks : List (List Nat))
    (hfl : chunks.flatten = uint32LE n ++ payload)
    (hn : payload.length = n) (hlim : n ≤ MESSAGE_SIZE_LIMIT)
    (hparse : jsonParse (utf8Decode payload) = some m)
    (hwrap : isWrappedMessage m = false) :
    ((runChunks { initialHandlerState with useRobustParsing := false } chunks).2 =
        [.message m] ∧
      (runChunks { initialHandlerState with useRobustParsing := false }
        chunks).1.inputBuffer = []) ∧
    (∀ k, ((chunks.take k).flatten).length < HEADER_SIZE + n →
      (runChunks { initialHandlerState with useRobustParsing := false }
          (chunks.take k)).1.inputBuffer = (chunks.take k).flatten ∧
      (runChunks { initialHandlerState with useRobustParsing := false }
          (chunks.take k)).2 = []) := by
  constructor
  · exact strict_run_aux chunks { initialHandlerState with useRobustParsing := false }
      payload n m rfl (Or.inl rfl) (by simpa using hfl)
      (by simp [initialHandlerState, HEADER_SIZE]) hn hlim hparse hwrap
  · intro k hk
    have hsplit : (chunks.take k).flatten ++ (chunks.drop k).flatten =
        uint32LE n ++ payload := by
      rw [← List.flatten_append, List.take_append_drop, hfl]
    have := strict_prefix_aux (chunks.take k)
      { initialHandlerState with useRobustParsing := false } payload
      ((chunks.drop k).flatten) n rfl (Or.inl rfl)
      (by simpa [initialHandlerState] using hsplit)
      (by simpa [initialHandlerState] using hk) hlim
    exact ⟨by rw [this.1]; simp [initialHandlerState], this.2⟩

/-- **C6 witness.**  The 12-byte payload `{"a":"cdef"}` with a correct
header, delivered as header chunk then payload chunk: exactly one message
event with the parsed object. -/
theorem strict_split_delivery_witness :
    (runChunks { initialHandlerState with useRobustParsing := false }
        [uint32LE 12,
          utf8Encode ['{', '"', 'a', '"', ':', '"', 'c', 'd', 'e', 'f', '"', '}']]).2 =
      [.message (.obj [(['a'], .str ['c', 'd', 'e', 'f'])])] :=
  (strict_split_delivery
    (utf8Encode ['{', '"', 'a', '"', ':', '"', 'c', 'd', 'e', 'f', '"', '}']) 12
    (.obj [(['a'], .str ['c', 'd', 'e', 'f'])])
    [uint32LE 12, utf8Encode ['{', '"', 'a', '"', ':', '"', 'c', 'd', 'e', 'f', '"', '}']]
    (by simp) rfl (by decide) rfl rfl).1.1

/-- Decoding what `charUtf8` encoded recovers the character, independent of
what follows (one unit of fuel per decoded character). -/
theorem utf8DecodeF_char_step (c : Char) (rest : List Nat) (fuel : Nat) :
    utf8DecodeF (fuel + 1) (charUtf8 c ++ rest) = c :: utf8DecodeF fuel rest := by
  have hv : c.toNat < 55296 ∨ (57343 < c.toNat ∧ c.toNat < 1114112) := by
    have h := c.valid
    unfold UInt32.isValidChar Nat.isValidChar at h
    exact h
  by_cases h1 : c.toNat < 128
  · have henc : charUtf8 c = [c.toNat] := by simp [charUtf8, h1]
    rw [henc]
    simp only [List.cons_append, List.nil_append, utf8DecodeF, if_pos h1, Char.ofNat_toNat]
  · by_cases h2 : c.toNat < 2048
    · have henc : charUtf8 c = [192 + c.toNat / 64, 128 + c.toNat % 64] := by
        simp [charUtf8, h1, h2]
      rw [henc]
      have e1 : ¬ (192 + c.toNat / 64 < 128) := by omega
      have e2 : 194 ≤ 192 + c.toNat / 64 := by omega
      have e3 : 192 + c.toNat / 64 ≤ 223 := by omega
      have e4 : isCont (128 + c.toNat % 64) = true := by
        simp only [isCont, Bool.and_eq_true, decide_eq_true_eq]
        omega
      have ev : (192 + c.toNat / 64 - 192) * 64 + (128 + c.toNat % 64 - 128) = c.toNat := by
        omega
      simp only [List.cons_append, List.nil_append, utf8DecodeF, e1, if_false, e2, e3,
        decide_True, Bool.and_self, if_true, e4, ev, Char.ofNat_toNat]
    · by_cases h3 : c.toNat < 65536
      · have henc : charUtf8 c =
            [224 + c.toNat / 4096, 128 + c.toNat / 64 % 64, 128 + c.toNat % 64] := by
          simp [charUtf8, h1, h2, h3]
        rw [henc]
        have e1 : ¬ (224 + c.toNat / 4096 < 128) := by omega
        have e2 : ¬ (194 ≤ 224 + c.toNat / 4096 ∧ 224 + c.toNat / 4096 ≤ 223) := by omega
        have e3 : 224 ≤ 224 + c.toNat / 4096 := by omega
        have e4 : 224 + c.toNat / 4096 ≤ 239 := by omega
        have e5 : isCont (128 + c.toNat / 64 % 64) = true := by
          simp only [isCont, Bool.and_eq_true, decide_eq_true_eq]; omega
        have e6 : isCont (128 + c.toNat % 64) = true := by
          simp only [isCont, Bool.and_eq_true, decide_eq_true_eq]; omega
        have ev : (224 + c.toNat / 4096 - 224) * 4096 + (128 + c.toNat / 64 % 64 - 128) * 64 +
            (128 + c.toNat % 64 - 128) = c.toNat := by omega
        have hval : 2048 ≤ c.toNat ∧ (c.toNat < 55296 ∨ 57343 < c.toNat) := by omega
        simp only [List.cons_append, List.nil_append, utf8DecodeF]
        rw [if_neg e1, if_neg (by simpa [Bool.and_eq_true, decide_eq_true_eq] using e2),
          if_pos (by simp only [Bool.and_eq_true, decide_eq_true_eq]; omega)]
        rw [e5, e6]
        simp only [Bool.and_self, if_true, ev]
        rw [if_pos (by simp only [Bool.and_eq_true, Bool.or_eq_true, decide_eq_true_eq]; omega),
          Char.ofNat_toNat]
      · have henc : charUtf8 c =
            [240 + c.toNat / 262144, 128 + c.toNat / 4096 % 64, 128 + c.toNat / 64 % 64,
              128 + c.toNat % 64] := by
          simp [charUtf8, h1, h2, h3]
        rw [henc]
        have e1 : ¬ (240 + c.toNat / 262144 < 128) := by omega
        have e5 : isCont (128 + c.toNat / 4096 % 64) = true := by
          simp only [isCont, Bool.and_eq_true, decide_eq_true_eq]; omega
        have e6 : isCont (128 + c.toNat / 64 % 64) = true := by
          simp only [isCont, Bool.and_eq_true, decide_eq_true_eq]; omega
        have e7 : isCont (128 + c.toNat % 64) = true := by
          simp only [isCont, Bool.and_eq_true, decide_eq_true_eq]; omega
        have ev : (240 + c.toNat / 262144 - 240) * 262144 + (128 + c.toNat / 4096 % 64 - 128) * 4096 +
            (128 + c.toNat / 64 % 64 - 128) * 64 + (128 + c.toNat % 64 - 128) = c.toNat := by omega
        have hup : c.toNat < 1114112 := by omega
        simp only [List.cons_append, List.nil_append, utf8DecodeF]
        rw [if_neg e1, if_neg (by simp only [Bool.and_eq_true, decide_eq_true_eq]; omega),
          if_neg (by simp only [Bool.and_eq_true, decide_eq_true_eq]; omega),
          if_pos (by simp only [Bool.and_eq_true, decide_eq_true_eq]; omega)]
        rw [e5, e6, e7]
        simp only [Bool.and_self, if_true, ev]
        rw [if_pos (by simp only [Bool.and_eq_true, decide_eq_true_eq]; omega),
          Char.ofNat_toNat]

/-- Every character encodes to at least one byte. -/
theorem charUtf8_length_pos (c : Char) : 1 ≤ (charUtf8 c).length := by
  simp only [charUtf8]
  split_ifs <;> simp

/-- Fuel-general decode-encode inverse. -/
theorem utf8DecodeF_encode :
    ∀ (cs : List Char) (fuel : Nat), (utf8Encode cs).length ≤ fuel →
      utf8DecodeF fuel (utf8Encode cs) = cs := by
  intro cs
  induction cs with
  | nil => intro fuel _; cases fuel <;> rfl
  | cons c cs ih =>
    intro fuel h
    have hlen : (utf8Encode (c :: cs)).length =
        (charUtf8 c).length + (utf8Encode cs).length := by
      simp [utf8Encode]
    have hpos := charUtf8_length_pos c
    cases fuel with
    | zero => omega
    | succ fuel =>
      show utf8DecodeF (fuel + 1) (charUtf8 c ++ utf8Encode cs) = c :: cs
      rw [utf8DecodeF_char_step, ih fuel (by omega)]

/-- `buffer.toString('utf8')` inverts `Buffer.from(string, 'utf8')`. -/
theorem utf8Decode_encode (cs : List Char) : utf8Decode (utf8Encode cs) = cs :=
  utf8DecodeF_encode cs (utf8Encode cs).length le_rfl

/-- Bumping once after shifting by `n` is shifting by `n + 1`. -/
theorem bumpIdx_bumpN (n : Nat) (x : Nat ⊕ ScanState) :
    bumpIdx (bumpN n x) = bumpN (n + 1) x := by
  cases x with
  | inl j => simp only [bumpN, bumpIdx]; congr 1; omega
  | inr s => rfl

/-- The scrutiny of a shifted scan outcome. -/
theorem bumpIdx_match (x : Nat ⊕ ScanState) (b : List Char) (n : Nat) :
    bumpIdx (match x with
      | .inl j => (.inl j : Nat ⊕ ScanState)
      | .inr st' => bumpN n (scanChars b st')) =
    (match bumpIdx x with
      | .inl j => (.inl j : Nat ⊕ ScanState)
      | .inr st' => bumpN (n + 1) (scanChars b st')) := by
  cases x with
  | inl j => rfl
  | inr s => exact bumpIdx_bumpN n (scanChars b s)

/-- Scanning a concatenation: either the first fragment closes the object,
or its end state carries into the second with indices shifted. -/
theorem scanChars_append :
    ∀ (a b : List Char) (st : ScanState),
      scanChars (a ++ b) st =
        match scanChars a st with
        | .inl j => .inl j
        | .inr st' => bumpN a.length (scanChars b st') := by
  intro a
  induction a with
  | nil =>
    intro b st
    show scanChars b st = _
    cases h : scanChars b st with
    | inl j => simp [scanChars, bumpN, h]
    | inr s => simp [scanChars, bumpN, h]
  | cons c a' ih =>
    intro b st
    show scanChars (c :: (a' ++ b)) st = _
    simp only [scanChars, List.length_cons]
    split_ifs <;>
      first
        | rfl
        | (rw [ih, bumpIdx_match])

/-- One scan step on a structurally inert character (not a quote, a
backslash, or a brace) from a non-escaping state. -/
theorem scanChars_plain_step (c : Char) (l : List Char) (st : ScanState)
    (hesc : st.escapeNext = false)
    (h : c ≠ '"' ∧ c ≠ '\\' ∧ c ≠ '{' ∧ c ≠ '}') :
    scanChars (c :: l) st = bumpIdx (scanChars l st) := by
  obtain ⟨h1, h2, h3, h4⟩ := h
  simp only [scanChars, hesc, Bool.false_eq_true, if_false]
  rw [if_neg h2, if_neg h1, if_neg (by simp [h3]), if_neg (by simp [h4])]

/-- Scanning a run of structurally inert characters from a non-escaping
state changes nothing. -/
theorem scanChars_plain (l : List Char) (st : ScanState)
    (hesc : st.escapeNext = false)
    (h : ∀ c ∈ l, c ≠ '"' ∧ c ≠ '\\' ∧ c ≠ '{' ∧ c ≠ '}') :
    scanChars l st = .inr st := by
  induction l with
  | nil => rfl
  | cons c l ih =>
    rw [scanChars_plain_step c l st hesc (h c (by simp)),
      ih (fun x hx => h x (by simp [hx]))]
    rfl

theorem bumpIdx_pair (x : Nat ⊕ ScanState) :
    bumpIdx (bumpIdx x) = bumpN 2 x := by
  cases x with
  | inl j => simp only [bumpIdx, bumpN]; congr 1; omega
  | inr s => rfl

theorem bumpN_bumpN (m n : Nat) (x : Nat ⊕ ScanState) :
    bumpN m (bumpN n x) = bumpN (m + n) x := by
  cases x with
  | inl j => simp only [bumpN]; congr 1; omega
  | inr s => rfl

theorem scanChars_instring_step (c : Char) (l : List Char) (st : ScanState)
    (hstr : st.inString = true) (hesc : st.escapeNext = false)
    (h1 : c ≠ '"') (h2 : c ≠ '\\') :
    scanChars (c :: l) st = bumpIdx (scanChars l st) := by
  simp only [scanChars, hesc, Bool.false_eq_true, if_false, hstr, Bool.not_true,
    Bool.false_and, if_false]
  rw [if_neg h2, if_neg h1]

theorem scanChars_quote_step (l : List Char) (st : ScanState)
    (hesc : st.escapeNext = false) :
    scanChars ('"' :: l) st =
      bumpIdx (scanChars l { st with inString := !st.inString }) := by
  obtain ⟨si, se, sb⟩ := st
  simp only at hesc
  subst hesc
  simp [scanChars]

theorem scanChars_escape_pair (x : Char) (l : List Char) (st : ScanState)
    (hesc : st.escapeNext = false) :
    scanChars ('\\' :: x :: l) st = bumpIdx (bumpIdx (scanChars l st)) := by
  obtain ⟨si, se, sb⟩ := st
  simp only at hesc
  subst hesc
  simp [scanChars]

theorem scanChars_openb_to (l : List Char) (st : ScanState) (k : Int)
    (hstr : st.inString = false) (hesc : st.escapeNext = false)
    (hk : st.braceCount + 1 = k) :
    scanChars ('{' :: l) st = bumpIdx (scanChars l ⟨false, false, k⟩) := by
  obtain ⟨si, se, sb⟩ := st
  simp only at hstr hesc hk
  subst hstr hesc hk
  simp [scanChars]

theorem scanChars_closeb_to (l : List Char) (st : ScanState) (k : Int)
    (hstr : st.inString = false) (hesc : st.escapeNext = false)
    (hk : st.braceCount - 1 = k) (h0 : k ≠ 0) :
    scanChars ('}' :: l) st = bumpIdx (scanChars l ⟨false, false, k⟩) := by
  obtain ⟨si, se, sb⟩ := st
  simp only at hstr hesc hk
  subst hstr hesc hk
  simp [scanChars, h0]

theorem hexChar_plain (d : Nat) (hd : d < 16) :
    hexChar d ≠ '"' ∧ hexChar d ≠ '\\' := by
  interval_cases d <;> exact ⟨by decide, by decide⟩

theorem scanChars_escapeChar (c : Char) (l : List Char) (st : ScanState)
    (hstr : st.inString = true) (hesc : st.escapeNext = false) :
    scanChars (escapeChar c ++ l) st =
      bumpN (escapeChar c).length (scanChars l st) := by
  unfold escapeChar
  split_ifs with h1 h2 h3 h4 h5 h6 h7 h8
  · rw [List.cons_append, List.cons_append, List.nil_append,
      scanChars_escape_pair _ _ _ hesc, bumpIdx_pair]
    rfl
  · rw [List.cons_append, List.cons_append, List.nil_append,
      scanChars_escape_pair _ _ _ hesc, bumpIdx_pair]
    rfl
  · rw [List.cons_append, List.cons_append, List.nil_append,
      scanChars_escape_pair _ _ _ hesc, bumpIdx_pair]
    rfl
  · rw [List.cons_append, List.cons_append, List.nil_append,
      scanChars_escape_pair _ _ _ hesc, bumpIdx_pair]
    rfl
  · rw [List.cons_append, List.cons_append, List.nil_append,
      scanChars_escape_pair _ _ _ hesc, bumpIdx_pair]
    rfl
  · rw [List.cons_append, List.cons_append, List.nil_append,
      scanChars_escape_pair _ _ _ hesc, bumpIdx_pair]
    rfl
  · rw [List.cons_append, List.cons_append, List.nil_append,
      scanChars_escape_pair _ _ _ hesc, bumpIdx_pair]
    rfl
  · simp only [List.cons_append, List.nil_append]
    rw [scanChars_escape_pair _ _ _ hesc,
      scanChars_instring_step _ _ _ hstr hesc (by decide) (by decide),
      scanChars_instring_step _ _ _ hstr hesc (by decide) (by decide),
      scanChars_instring_step _ _ _ hstr hesc
        (hexChar_plain _ (by omega)).1 (hexChar_plain _ (by omega)).2,
      scanChars_instring_step _ _ _ hstr hesc
        (hexChar_plain _ (by omega)).1 (hexChar_plain _ (by omega)).2]
    generalize scanChars l st = y
    cases y with
    | inl j => simp only [bumpIdx, bumpN, List.length_cons, List.length_nil,
        Sum.inl.injEq]; omega
    | inr s => rfl
  · rw [List.cons_append, List.nil_append,
      scanChars_instring_step _ _ _ hstr hesc h1 h2]
    generalize scanChars l st = y
    cases y with
    | inl j => simp only [bumpIdx, bumpN, List.length_cons, List.length_nil,
        Sum.inl.injEq]; omega
    | inr s => rfl

theorem scanChars_escapeChars (s l : List Char) (st : ScanState)
    (hstr : st.inString = true) (hesc : st.escapeNext = false) :
    scanChars (escapeChars s ++ l) st =
      bumpN (escapeChars s).length (scanChars l st) := by
  induction s with
  | nil =>
    show scanChars l st = _
    cases h : scanChars l st <;> simp [escapeChars, bumpN, h]
  | cons c s ih =>
    show scanChars ((escapeChar c ++ escapeChars s) ++ l) st = _
    rw [List.append_assoc, scanChars_escapeChar c _ st hstr hesc, ih]
    generalize scanChars l st = y
    cases y with
    | inl j => simp only [bumpN, bumpN_bumpN, escapeChars, List.length_append,
        Sum.inl.injEq]; omega
    | inr s' => rfl

theorem scanChars_quoteChars (s l : List Char) (st : ScanState)
    (hstr : st.inString = false) (hesc : st.escapeNext = false) :
    scanChars (quoteChars s ++ l) st =
      bumpN (quoteChars s).length (scanChars l st) := by
  obtain ⟨si, se, sb⟩ := st
  simp only at hesc hstr
  subst hesc hstr
  show scanChars ('"' :: (escapeChars s ++ ['"'] ++ l)) ⟨false, false, sb⟩ = _
  rw [scanChars_quote_step _ _ rfl]
  rw [List.append_assoc, scanChars_escapeChars _ _ _ rfl rfl]
  rw [List.cons_append, List.nil_append, scanChars_quote_step _ _ rfl]
  show bumpIdx (bumpN (escapeChars s).length (bumpIdx
      (scanChars l ⟨false, false, sb⟩))) = _
  generalize scanChars l ⟨false, false, sb⟩ = y
  cases y with
  | inl j => simp only [bumpIdx, bumpN, quoteChars, List.length_cons,
      List.length_append, List.length_nil, Sum.inl.injEq]; omega
  | inr s' => rfl

theorem scanChars_plain_frag (f l : List Char) (st : ScanState)
    (hesc : st.escapeNext = false)
    (h : ∀ c ∈ f, c ≠ '"' ∧ c ≠ '\\' ∧ c ≠ '{' ∧ c ≠ '}') :
    scanChars (f ++ l) st = bumpN f.length (scanChars l st) := by
  induction f with
  | nil =>
    show scanChars l st = _
    cases hy : scanChars l st <;> simp [bumpN, hy]
  | cons c f ih =>
    rw [List.cons_append, scanChars_plain_step c _ st hesc (h c (by simp)),
      ih (fun x hx => h x (by simp [hx]))]
    generalize scanChars l st = y
    cases y with
    | inl j => simp only [bumpIdx, bumpN, List.length_cons, Sum.inl.injEq]; omega
    | inr s' => rfl

theorem digitChar_plain (d : Nat) :
    digitChar d ≠ '"' ∧ digitChar d ≠ '\\' ∧ digitChar d ≠ '{' ∧ digitChar d ≠ '}' := by
  unfold digitChar
  have h : d % 10 < 10 := Nat.mod_lt _ (by omega)
  set e := d % 10 with he
  interval_cases e <;> exact ⟨by decide, by decide, by decide, by decide⟩

theorem natDigitsF_plain :
    ∀ (fuel n : Nat) (acc : List Char),
      (∀ c ∈ acc, c ≠ '"' ∧ c ≠ '\\' ∧ c ≠ '{' ∧ c ≠ '}') →
      ∀ c ∈ natDigitsF fuel n acc, c ≠ '"' ∧ c ≠ '\\' ∧ c ≠ '{' ∧ c ≠ '}' := by
  intro fuel
  induction fuel with
  | zero =>
    intro n acc hacc c hc
    simp only [natDigitsF, List.mem_cons] at hc
    rcases hc with rfl | hc
    · exact digitChar_plain n
    · exact hacc c hc
  | succ fuel ih =>
    intro n acc hacc c hc
    simp only [natDigitsF] at hc
    split_ifs at hc with hn
    · simp only [List.mem_cons] at hc
      rcases hc with rfl | hc
      · exact digitChar_plain n
      · exact hacc c hc
    · refine ih (n / 10) _ ?_ c hc
      intro x hx
      simp only [List.mem_cons] at hx
      rcases hx with rfl | hx
      · exact digitChar_plain (n % 10)
      · exact hacc x hx

theorem intChars_plain (n : Int) :
    ∀ c ∈ intChars n, c ≠ '"' ∧ c ≠ '\\' ∧ c ≠ '{' ∧ c ≠ '}' := by
  intro c hc
  unfold intChars at hc
  split_ifs at hc with hn
  · simp only [List.mem_cons] at hc
    rcases hc with rfl | hc
    · exact ⟨by decide, by decide, by decide, by decide⟩
    · exact natDigitsF_plain _ _ [] (by simp) c hc
  · exact natDigitsF_plain _ _ [] (by simp) c hc

theorem scan_stringify_main :
    ∀ n : Nat,
      (∀ v : JsValue, sizeOf v ≤ n →
        ∀ (s : List Char) (st : ScanState) (l : List Char),
          stringify v = some s → st.inString = false → st.escapeNext = false →
          1 ≤ st.braceCount →
          scanChars (s ++ l) st = bumpN s.length (scanChars l st)) ∧
      (∀ kvs : List (List Char × JsValue), sizeOf kvs ≤ n →
        ∀ (st : ScanState) (l : List Char),
          st.inString = false → st.escapeNext = false → 1 ≤ st.braceCount →
          scanChars (joinComma (stringifyFields kvs) ++ l) st =
            bumpN (joinComma (stringifyFields kvs)).length (scanChars l st)) := by
  intro n
  induction n with
  | zero =>
    constructor
    · intro v hv
      exfalso
      cases v <;> simp at hv
    · intro kvs hk
      exfalso
      cases kvs <;> simp at hk
  | succ n ih =>
    obtain ⟨ihval, ihfields⟩ := ih
    constructor
    · intro v hv s st l hs hstr hesc hbc
      cases v with
      | undef => simp [stringify] at hs
      | null =>
        simp only [stringify, Option.some.injEq] at hs
        subst hs
        exact scanChars_plain_frag _ _ _ hesc (by decide)
      | bool b =>
        cases b with
        | true =>
          simp only [stringify, Option.some.injEq] at hs
          subst hs
          exact scanChars_plain_frag _ _ _ hesc (by decide)
        | false =>
          simp only [stringify, Option.some.injEq] at hs
          subst hs
          exact scanChars_plain_frag _ _ _ hesc (by decide)
      | num m =>
        simp only [stringify, Option.some.injEq] at hs
        subst hs
        exact scanChars_plain_frag _ _ _ hesc (intChars_plain m)
      | str s0 =>
        simp only [stringify, Option.some.injEq] at hs
        subst hs
        exact scanChars_quoteChars _ _ _ hstr hesc
      | arr xs =>
        simp only [stringify, Option.some.injEq] at hs
        subst hs
        have hxs : sizeOf xs ≤ n := by
          simp only [JsValue.arr.sizeOf_spec] at hv; omega
        have htail : ∀ ys : List JsValue, sizeOf ys ≤ sizeOf xs →
            ∀ (st' : ScanState) (l' : List Char), st'.inString = false →
              st'.escapeNext = false → 1 ≤ st'.braceCount →
              scanChars (stringifyItemsTail ys ++ l') st' =
                bumpN (stringifyItemsTail ys).length (scanChars l' st') := by
          intro ys
          induction ys with
          | nil =>
            intro _ st' l' hstr' hesc' hbc'
            simp only [stringifyItemsTail, List.nil_append, List.length_nil]
            cases hy : scanChars l' st' <;> simp [bumpN, hy]
          | cons x ys' ihy =>
            intro hsz st' l' hstr' hesc' hbc'
            have hx : sizeOf x ≤ n := by
              simp only [List.cons.sizeOf_spec] at hsz; omega
            have hys' : sizeOf ys' ≤ sizeOf xs := by
              simp only [List.cons.sizeOf_spec] at hsz; omega
            simp only [stringifyItemsTail]
            rw [List.cons_append, scanChars_plain_step _ _ _ hesc' (by decide),
              List.append_assoc]
            cases hsx : stringify x with
            | some sx =>
              rw [show stringifyItem x = sx from by simp [stringifyItem, hsx]]
              rw [ihval x hx sx st' _ hsx hstr' hesc' hbc']
              rw [ihy hys' st' l' hstr' hesc' hbc']
              generalize scanChars l' st' = y
              cases y with
              | inl j => simp only [bumpIdx, bumpN, List.length_cons,
                  List.length_append, Sum.inl.injEq]; omega
              | inr s' => rfl
            | none =>
              rw [show stringifyItem x = nullChars from by simp [stringifyItem, hsx]]
              rw [scanChars_plain_frag _ _ _ hesc' (by decide)]
              rw [ihy hys' st' l' hstr' hesc' hbc']
              generalize scanChars l' st' = y
              cases y with
              | inl j => simp only [bumpIdx, bumpN, List.length_cons,
                  List.length_append, Sum.inl.injEq]; omega
              | inr s' => rfl
        have hitems : scanChars (stringifyItems xs ++ (']' :: l)) st =
            bumpN (stringifyItems xs).length (scanChars (']' :: l) st) := by
          cases xs with
          | nil =>
            simp only [stringifyItems, List.nil_append, List.length_nil]
            cases hy : scanChars (']' :: l) st <;> simp [bumpN, hy]
          | cons x xs' =>
            have hx : sizeOf x ≤ n := by
              simp only [List.cons.sizeOf_spec] at hxs; omega
            have hxs' : sizeOf xs' ≤ sizeOf (x :: xs') := by
              simp only [List.cons.sizeOf_spec]; omega
            simp only [stringifyItems]
            rw [List.append_assoc]
            cases hsx : stringify x with
            | some sx =>
              rw [show stringifyItem x = sx from by simp [stringifyItem, hsx]]
              rw [ihval x hx sx st _ hsx hstr hesc hbc]
              rw [htail xs' (by simp only [List.cons.sizeOf_spec] at hxs ⊢; omega)
                st _ hstr hesc hbc]
              generalize scanChars (']' :: l) st = y
              cases y with
              | inl j => simp only [bumpN, List.length_append, Sum.inl.injEq]; omega
              | inr s' => rfl
            | none =>
              rw [show stringifyItem x = nullChars from by simp [stringifyItem, hsx]]
              rw [scanChars_plain_frag _ _ _ hesc (by decide)]
              rw [htail xs' (by simp only [List.cons.sizeOf_spec] at hxs ⊢; omega)
                st _ hstr hesc hbc]
              generalize scanChars (']' :: l) st = y
              cases y with
              | inl j => simp only [bumpN, List.length_append, Sum.inl.injEq]; omega
              | inr s' => rfl
        rw [List.cons_append, List.append_assoc, List.cons_append, List.nil_append]
        rw [scanChars_plain_step _ _ _ hesc (by decide)]
        rw [hitems]
        rw [scanChars_plain_step _ _ _ hesc (by decide)]
        generalize scanChars l st = y
        cases y with
        | inl j => simp only [bumpIdx, bumpN, List.length_cons, List.length_append,
            List.length_nil, Sum.inl.injEq]; omega
        | inr s' => rfl
      | obj kvs =>
        simp only [stringify, Option.some.injEq] at hs
        subst hs
        have hkvs : sizeOf kvs ≤ n := by
          simp only [JsValue.obj.sizeOf_spec] at hv; omega
        obtain ⟨si, se, sb⟩ := st
        simp only at hstr hesc hbc
        subst hstr hesc
        rw [List.cons_append, List.append_assoc, List.cons_append, List.nil_append]
        rw [scanChars_openb_to _ _ (sb + 1) rfl rfl rfl]
        rw [ihfields kvs hkvs ⟨false, false, sb + 1⟩ _ rfl rfl
          (by show (1 : Int) ≤ sb + 1; omega)]
        rw [scanChars_closeb_to _ _ sb rfl rfl (by show sb + 1 - 1 = sb; omega)
          (by omega)]
        generalize scanChars l ⟨false, false, sb⟩ = y
        cases y with
        | inl j => simp only [bumpIdx, bumpN, List.length_cons, List.length_append,
            List.length_nil, Sum.inl.injEq]; omega
        | inr s' => rfl
    · intro kvs
      induction kvs with
      | nil =>
        intro _ st l hstr hesc hbc
        simp only [stringifyFields, joinComma, List.nil_append, List.length_nil]
        cases hy : scanChars l st <;> simp [bumpN, hy]
      | cons kv rest ihrest =>
        intro hk st l hstr hesc hbc
        obtain ⟨k, v⟩ := kv
        have hv : sizeOf v ≤ n := by
          simp only [List.cons.sizeOf_spec, Prod.mk.sizeOf_spec] at hk; omega
        have hrest : sizeOf rest ≤ n + 1 := by
          simp only [List.cons.sizeOf_spec] at hk; omega
        cases hsv : stringify v with
        | none =>
          rw [show stringifyFields ((k, v) :: rest) = stringifyFields rest from by
            simp [stringifyFields, hsv]]
          exact ihrest hrest st l hstr hesc hbc
        | some sv =>
          rw [show stringifyFields ((k, v) :: rest) =
              (quoteChars k ++ ':' :: sv) :: stringifyFields rest from by
            simp [stringifyFields, hsv]]
          cases hfs : stringifyFields rest with
          | nil =>
            rw [show joinComma [quoteChars k ++ ':' :: sv] =
                quoteChars k ++ ':' :: sv from rfl]
            rw [List.append_assoc, scanChars_quoteChars _ _ _ hstr hesc,
              List.cons_append, scanChars_plain_step _ _ _ hesc (by decide),
              ihval v hv sv st l hsv hstr hesc hbc]
            generalize scanChars l st = y
            cases y with
            | inl j => simp only [bumpIdx, bumpN, List.length_cons,
                List.length_append, Sum.inl.injEq]; omega
            | inr s' => rfl
          | cons f2 more =>
            rw [show joinComma ((quoteChars k ++ ':' :: sv) :: f2 :: more) =
                (quoteChars k ++ ':' :: sv) ++ ',' :: joinComma (f2 :: more) from rfl]
            rw [← hfs]
            rw [List.append_assoc, List.append_assoc,
              scanChars_quoteChars _ _ _ hstr hesc,
              List.cons_append, scanChars_plain_step _ _ _ hesc (by decide),
              ihval v hv sv st _ hsv hstr hesc hbc,
              List.cons_append, scanChars_plain_step _ _ _ hesc (by decide),
              ihrest hrest st l hstr hesc hbc]
            generalize scanChars l st = y
            cases y with
            | inl j =>
              rw [hfs]
              simp only [joinComma, bumpIdx, bumpN, List.length_cons,
                List.length_append, Sum.inl.injEq]
              omega
            | inr s' => rfl

theorem scan_stringify (v : JsValue) (s : List Char) (st : ScanState)
    (l : List Char) (hs : stringify v = some s) (hstr : st.inString = false)
    (hesc : st.escapeNext = false) (hbc : 1 ≤ st.braceCount) :
    scanChars (s ++ l) st = bumpN s.length (scanChars l st) :=
  (scan_stringify_main (sizeOf v)).1 v le_rfl s st l hs hstr hesc hbc

theorem scan_fields (kvs : List (List Char × JsValue)) (st : ScanState)
    (l : List Char) (hstr : st.inString = false) (hesc : st.escapeNext = false)
    (hbc : 1 ≤ st.braceCount) :
    scanChars (joinComma (stringifyFields kvs) ++ l) st =
      bumpN (joinComma (stringifyFields kvs)).length (scanChars l st) :=
  (scan_stringify_main (sizeOf kvs)).2 kvs le_rfl st l hstr hesc hbc

theorem scan_object_closes (kvs : List (List Char × JsValue)) (s : List Char)
    (hs : stringify (.obj kvs) = some s) :
    scanChars s initScan = .inl s.length := by
  simp only [stringify, Option.some.injEq] at hs
  subst hs
  rw [scanChars_openb_to _ initScan 1 rfl rfl (by norm_num [initScan])]
  rw [scan_fields kvs ⟨false, false, 1⟩ _ rfl rfl (by norm_num)]
  rw [show scanChars ['}'] (⟨false, false, 1⟩ : ScanState) = .inl 1 from rfl]
  simp only [bumpIdx, bumpN, List.length_cons, List.length_append,
    List.length_nil, Sum.inl.injEq]

theorem digitChar_toNat (d : Nat) : (digitChar d).toNat = 48 + d % 10 := by
  unfold digitChar
  have h : d % 10 < 10 := Nat.mod_lt _ (by omega)
  set e := d % 10 with he
  interval_cases e <;> decide

theorem digitChar_isDigit (d : Nat) : isDigitChar (digitChar d) = true := by
  unfold digitChar
  have h : d % 10 < 10 := Nat.mod_lt _ (by omega)
  set e := d % 10 with he
  interval_cases e <;> decide

theorem natDigitsF_ne_nil (fuel n : Nat) (acc : List Char) :
    natDigitsF fuel n acc ≠ [] := by
  cases fuel with
  | zero => simp [natDigitsF]
  | succ fuel =>
    simp only [natDigitsF]
    split_ifs
    · simp
    · exact natDigitsF_ne_nil fuel _ _
termination_by fuel

theorem natDigitsF_append :
    ∀ (fuel n : Nat) (acc : List Char),
      natDigitsF fuel n acc = natDigitsF fuel n [] ++ acc := by
  intro fuel
  induction fuel with
  | zero => intro n acc; rfl
  | succ fuel ih =>
    intro n acc
    simp only [natDigitsF]
    split_ifs with hn
    · rfl
    · rw [ih (n / 10) (digitChar (n % 10) :: acc),
        ih (n / 10) [digitChar (n % 10)], List.append_assoc]
      rfl

theorem natDigitsF_digits :
    ∀ (fuel n : Nat), ∀ c ∈ natDigitsF fuel n [], isDigitChar c = true := by
  intro fuel
  induction fuel with
  | zero =>
    intro n c hc
    simp only [natDigitsF, List.mem_singleton] at hc
    subst hc
    exact digitChar_isDigit n
  | succ fuel ih =>
    intro n c hc
    simp only [natDigitsF] at hc
    split_ifs at hc with hn
    · simp only [List.mem_singleton] at hc
      subst hc
      exact digitChar_isDigit n
    · rw [natDigitsF_append] at hc
      simp only [List.mem_append, List.mem_singleton] at hc
      rcases hc with hc | hc
      · exact ih (n / 10) c hc
      · subst hc; exact digitChar_isDigit (n % 10)

theorem digitsToNat_append_digit (ds : List Char) (c : Char) :
    digitsToNat (ds ++ [c]) = digitsToNat ds * 10 + (c.toNat - '0'.toNat) := by
  unfold digitsToNat
  rw [List.foldl_append]
  rfl

theorem natDigitsF_value :
    ∀ (fuel n : Nat), n ≤ fuel → digitsToNat (natDigitsF fuel n []) = n := by
  intro fuel
  induction fuel with
  | zero =>
    intro n hn
    have : n = 0 := by omega
    subst this
    decide
  | succ fuel ih =>
    intro n hn
    simp only [natDigitsF]
    split_ifs with h10
    · show digitsToNat [digitChar n] = n
      unfold digitsToNat
      simp only [List.foldl_cons, List.foldl_nil]
      rw [show (0 : Nat) * 10 + ((digitChar n).toNat - '0'.toNat) =
        (digitChar n).toNat - '0'.toNat from by omega]
      rw [digitChar_toNat]
      have h48 : '0'.toNat = 48 := rfl
      omega
    · rw [natDigitsF_append, digitsToNat_append_digit,
        ih (n / 10) (by omega), digitChar_toNat]
      have h48 : '0'.toNat = 48 := rfl
      omega

theorem natDigitsF_head :
    ∀ (fuel n : Nat), 1 ≤ n → n ≤ fuel →
      (natDigitsF fuel n []).headI ≠ '0' := by
  intro fuel
  induction fuel with
  | zero => intro n h1 h2; omega
  | succ fuel ih =>
    intro n h1 h2
    simp only [natDigitsF]
    split_ifs with h10
    · show (digitChar n) ≠ '0'
      intro h
      have := congrArg Char.toNat h
      rw [digitChar_toNat] at this
      simp only [show '0'.toNat = 48 from rfl] at this
      omega
    · rw [natDigitsF_append]
      cases hnd : natDigitsF fuel (n / 10) [] with
      | nil => exact absurd hnd (natDigitsF_ne_nil _ _ _)
      | cons d ds =>
        have := ih (n / 10) (by omega) (by omega)
        rw [hnd] at this
        simpa using this

theorem takeDigits_split :
    ∀ (ds rest : List Char), (∀ c ∈ ds, isDigitChar c = true) →
      (rest = [] ∨ isDigitChar (rest.headI) = false) →
      takeDigits (ds ++ rest) = (ds, rest) := by
  intro ds
  induction ds with
  | nil =>
    intro rest _ hrest
    rcases hrest with rfl | hrest
    · rfl
    · cases rest with
      | nil => rfl
      | cons r rs =>
        simp only [List.headI] at hrest
        simp [takeDigits, hrest]
  | cons d ds ih =>
    intro rest hds hrest
    simp only [List.cons_append, takeDigits, hds d (by simp), if_true,
      List.append_eq]
    rw [ih rest (fun c hc => hds c (by simp [hc])) hrest]

theorem natDigits_boundary (rest : List Char) (hrest : numBoundary rest) :
    rest = [] ∨ isDigitChar rest.headI = false := by
  cases rest with
  | nil => exact Or.inl rfl
  | cons c rs => exact Or.inr hrest.1

theorem parseNumber_digits (A : Nat) (neg : Bool) (rest : List Char)
    (hrest : numBoundary rest) :
    (let (ds, cs2) := takeDigits (natDigits A [] ++ rest)
     if ds.isEmpty then none
     else if ds.length > 1 && ds.headI = '0' then none
     else
       match cs2 with
       | '.' :: _ => none
       | 'e' :: _ => none
       | 'E' :: _ => none
       | _ =>
         let v : Int := digitsToNat ds
         some (JsValue.num (if neg then -v else v), cs2)) =
      some (.num (if neg then -(A : Int) else (A : Int)), rest) := by
  rw [show natDigits A [] = natDigitsF A A [] from rfl]
  rw [takeDigits_split _ _ (natDigitsF_digits A A) (natDigits_boundary rest hrest)]
  have hne : natDigitsF A A [] ≠ [] := natDigitsF_ne_nil A A []
  have hlz : (decide ((natDigitsF A A []).length > 1) &&
      decide ((natDigitsF A A []).headI = '0')) = false := by
    by_cases hA : A = 0
    · subst hA
      decide
    · have := natDigitsF_head A A (by omega) le_rfl
      simp [this]
  simp only
  rw [if_neg (by simpa using hne)]
  rw [hlz]
  simp only [Bool.false_eq_true, if_false]
  rw [natDigitsF_value A A le_rfl]
  cases rest with
  | nil => rfl
  | cons c rs =>
    obtain ⟨hd, h1, h2, h3⟩ := hrest
    split
    · rename_i heq
      injection heq with heq1 heq2
      exact absurd heq1 h1
    · rename_i heq
      injection heq with heq1 heq2
      exact absurd heq1 h2
    · rename_i heq
      injection heq with heq1 heq2
      exact absurd heq1 h3
    · rfl

theorem parseNumber_intChars (n : Int) (rest : List Char)
    (hrest : numBoundary rest) :
    parseNumber (intChars n ++ rest) = some (.num n, rest) := by
  unfold intChars
  split_ifs with hneg
  · have h := parseNumber_digits n.natAbs true rest hrest
    simp only [if_true] at h
    rw [show (-(n.natAbs : Int)) = n from by omega] at h
    exact h
  · have h := parseNumber_digits n.natAbs false rest hrest
    simp only [Bool.false_eq_true, if_false] at h
    rw [show ((n.natAbs : Int)) = n from by omega] at h
    cases hd : natDigitsF n.natAbs n.natAbs [] with
    | nil => exact absurd hd (natDigitsF_ne_nil _ _ _)
    | cons d ds =>
      have hdig : isDigitChar d = true := by
        have := natDigitsF_digits n.natAbs n.natAbs d
        rw [hd] at this
        exact this (by simp)
      have hdm : d ≠ '-' := by
        intro he
        subst he
        simp [isDigitChar] at hdig
      rw [show natDigits n.natAbs [] = natDigitsF n.natAbs n.natAbs [] from rfl,
        hd] at h ⊢
      rw [List.cons_append] at h ⊢
      unfold parseNumber
      rw [show (match d :: (ds ++ rest) with
          | '-' :: r => ((true : Bool), r)
          | x => (false, d :: (ds ++ rest))) = (false, d :: (ds ++ rest)) from by
        split
        · rename_i heq
          injection heq with h1 _
          exact absurd h1 hdm
        · rfl]
      exact h

theorem hexVal_hexChar (d : Nat) (hd : d < 16) : hexVal (hexChar d) = some d := by
  interval_cases d <;> decide

theorem parseStrBodyF_lit_step (c : Char) (l : List Char) (fuel : Nat)
    (h1 : c ≠ '"') (h2 : c ≠ '\\') (h32 : ¬c.toNat < 32) :
    parseStrBodyF (fuel + 1) (c :: l) =
      match parseStrBodyF fuel l with
      | some (s, r) => some (c :: s, r)
      | none => none := by
  simp only [parseStrBodyF]
  split
  · rename_i heq
    exact absurd heq (by simp)
  · rename_i heq
    injection heq with hx _
    exact absurd hx h1
  · rename_i heq
    injection heq with hx _
    exact absurd hx h2
  · rename_i heq
    injection heq with hx hy
    subst hx
    subst hy
    rw [if_neg h32]
    cases parseStrBodyF fuel l with
    | none => rfl
    | some p => cases p; rfl

theorem parse_escapeChars :
    ∀ (s : List Char) (fuel : Nat) (rest : List Char),
      (escapeChars s ++ '"' :: rest).length ≤ fuel →
      parseStrBodyF fuel (escapeChars s ++ '"' :: rest) = some (s, rest) := by
  intro s
  induction s with
  | nil =>
    intro fuel rest hf
    cases fuel with
    | zero => simp at hf
    | succ f => rfl
  | cons c cs ih =>
    intro fuel rest hf
    simp only [escapeChars, List.length_append, List.length_cons,
      List.append_assoc] at hf
    rw [show escapeChars (c :: cs) ++ '"' :: rest =
        escapeChar c ++ (escapeChars cs ++ '"' :: rest) from by
      simp [escapeChars]]
    unfold escapeChar
    split_ifs with h1 h2 h3 h4 h5 h6 h7 h8
    · subst h1
      have hl2 : (escapeChar '"').length = 2 := by simp [escapeChar]
      obtain ⟨f, rfl⟩ : ∃ f, fuel = f + 1 := ⟨fuel - 1, by omega⟩
      simp only [List.cons_append, List.nil_append, parseStrBodyF]
      rw [if_neg (by decide)]
      show (do
        let (s, r) ← parseStrBodyF f (escapeChars cs ++ '"' :: rest)
        some (('"' : Char) :: s, r) : Option (List Char × List Char)) = _
      rw [ih f rest (by simp only [List.length_append, List.length_cons]; omega)]
      rfl
    · subst h2
      have hl2 : (escapeChar '\\').length = 2 := by simp [escapeChar]
      obtain ⟨f, rfl⟩ : ∃ f, fuel = f + 1 := ⟨fuel - 1, by omega⟩
      simp only [List.cons_append, List.nil_append, parseStrBodyF]
      rw [if_neg (by decide)]
      show (do
        let (s, r) ← parseStrBodyF f (escapeChars cs ++ '"' :: rest)
        some (('\\' : Char) :: s, r) : Option (List Char × List Char)) = _
      rw [ih f rest (by simp only [List.length_append, List.length_cons]; omega)]
      rfl
    · subst h3
      have hl2 : (escapeChar (Char.ofNat 8)).length = 2 := by simp [escapeChar]
      obtain ⟨f, rfl⟩ : ∃ f, fuel = f + 1 := ⟨fuel - 1, by omega⟩
      simp only [List.cons_append, List.nil_append, parseStrBodyF]
      rw [if_neg (by decide)]
      show (do
        let (s, r) ← parseStrBodyF f (escapeChars cs ++ '"' :: rest)
        some ((Char.ofNat 8) :: s, r) : Option (List Char × List Char)) = _
      rw [ih f rest (by simp only [List.length_append, List.length_cons]; omega)]
      rfl
    · subst h4
      have hl2 : (escapeChar (Char.ofNat 9)).length = 2 := by simp [escapeChar]
      obtain ⟨f, rfl⟩ : ∃ f, fuel = f + 1 := ⟨fuel - 1, by omega⟩
      simp only [List.cons_append, List.nil_append, parseStrBodyF]
      rw [if_neg (by decide)]
      show (do
        let (s, r) ← parseStrBodyF f (escapeChars cs ++ '"' :: rest)
        some ((Char.ofNat 9) :: s, r) : Option (List Char × List Char)) = _
      rw [ih f rest (by simp only [List.length_append, List.length_cons]; omega)]
      rfl
    · subst h5
      have hl2 : (escapeChar (Char.ofNat 10)).length = 2 := by simp [escapeChar]
      obtain ⟨f, rfl⟩ : ∃ f, fuel = f + 1 := ⟨fuel - 1, by omega⟩
      simp only [List.cons_append, List.nil_append, parseStrBodyF]
      rw [if_neg (by decide)]
      show (do
        let (s, r) ← parseStrBodyF f (escapeChars cs ++ '"' :: rest)
        some ((Char.ofNat 10) :: s, r) : Option (List Char × List Char)) = _
      rw [ih f rest (by simp only [List.length_append, List.length_cons]; omega)]
      rfl
    · subst h6
      have hl2 : (escapeChar (Char.ofNat 12)).length = 2 := by simp [escapeChar]
      obtain ⟨f, rfl⟩ : ∃ f, fuel = f + 1 := ⟨fuel - 1, by omega⟩
      simp only [List.cons_append, List.nil_append, parseStrBodyF]
      rw [if_neg (by decide)]
      show (do
        let (s, r) ← parseStrBodyF f (escapeChars cs ++ '"' :: rest)
        some ((Char.ofNat 12) :: s, r) : Option (List Char × List Char)) = _
      rw [ih f rest (by simp only [List.length_append, List.length_cons]; omega)]
      rfl
    · subst h7
      have hl2 : (escapeChar (Char.ofNat 13)).length = 2 := by simp [escapeChar]
      obtain ⟨f, rfl⟩ : ∃ f, fuel = f + 1 := ⟨fuel - 1, by omega⟩
      simp only [List.cons_append, List.nil_append, parseStrBodyF]
      rw [if_neg (by decide)]
      show (do
        let (s, r) ← parseStrBodyF f (escapeChars cs ++ '"' :: rest)
        some ((Char.ofNat 13) :: s, r) : Option (List Char × List Char)) = _
      rw [ih f rest (by simp only [List.length_append, List.length_cons]; omega)]
      rfl
    · have hl6 : (escapeChar c).length = 6 := by
        simp [escapeChar, h1, h2, h3, h4, h5, h6, h7, h8]
      obtain ⟨f, rfl⟩ : ∃ f, fuel = f + 1 := ⟨fuel - 1, by omega⟩
      simp only [List.cons_append, List.nil_append, parseStrBodyF]
      rw [if_pos trivial]
      show (do
        let va ← hexVal '0'
        let vb ← hexVal '0'
        let vc ← hexVal (hexChar (c.toNat / 16))
        let vd ← hexVal (hexChar (c.toNat % 16))
        let (s, r) ← parseStrBodyF f (escapeChars cs ++ '"' :: rest)
        some (Char.ofNat (((va * 16 + vb) * 16 + vc) * 16 + vd) :: s, r) :
          Option (List Char × List Char)) = _
      rw [show hexVal '0' = some 0 from rfl,
        hexVal_hexChar (c.toNat / 16) (by omega),
        hexVal_hexChar (c.toNat % 16) (by omega)]
      show (do
        let (s, r) ← parseStrBodyF f (escapeChars cs ++ '"' :: rest)
        some (Char.ofNat (((0 * 16 + 0) * 16 + c.toNat / 16) * 16 + c.toNat % 16)
          :: s, r) : Option (List Char × List Char)) = _
      rw [ih f rest (by simp only [List.length_append, List.length_cons]; omega)]
      show some (Char.ofNat (((0 * 16 + 0) * 16 + c.toNat / 16) * 16 + c.toNat % 16)
        :: cs, rest) = _
      rw [show ((0 * 16 + 0) * 16 + c.toNat / 16) * 16 + c.toNat % 16 = c.toNat
        from by omega]
      rw [Char.ofNat_toNat]
    · have hl1 : (escapeChar c).length = 1 := by
        simp [escapeChar, h1, h2, h3, h4, h5, h6, h7, h8]
      obtain ⟨f, rfl⟩ : ∃ f, fuel = f + 1 := ⟨fuel - 1, by omega⟩
      simp only [List.cons_append, List.nil_append]
      rw [parseStrBodyF_lit_step c _ f h1 h2 h8]
      rw [ih f rest (by simp only [List.length_append, List.length_cons]; omega)]

theorem skipWs_cons (c : Char) (l : List Char) (h : isWsChar c = false) :
    skipWs (c :: l) = c :: l := by
  simp [skipWs, h]

theorem canonical_stringify (v : JsValue) (h : canonical v = true) :
    ∃ s, stringify v = some s := by
  cases v with
  | undef => simp [canonical] at h
  | null => exact ⟨nullChars, by simp [stringify]⟩
  | bool b =>
    cases b
    · exact ⟨['f', 'a', 'l', 's', 'e'], by simp [stringify]⟩
    · exact ⟨['t', 'r', 'u', 'e'], by simp [stringify]⟩
  | num n => exact ⟨intChars n, by simp [stringify]⟩
  | str s => exact ⟨quoteChars s, by simp [stringify]⟩
  | arr xs => exact ⟨'[' :: (stringifyItems xs ++ [']']), by simp [stringify]⟩
  | obj kvs =>
    exact ⟨'{' :: (joinComma (stringifyFields kvs) ++ ['}']), by simp [stringify]⟩

theorem digit_head_facts (c : Char) (h : isDigitChar c = true) :
    isWsChar c = false ∧ c ≠ ']' ∧ c ≠ ',' ∧ c ≠ '}' ∧ c ≠ 'n' ∧ c ≠ 't' ∧
      c ≠ 'f' ∧ c ≠ '"' ∧ c ≠ '[' ∧ c ≠ '{' := by
  have hws : isWsChar c = false := by
    by_contra hw
    simp only [Bool.not_eq_false] at hw
    simp only [isWsChar, Bool.or_eq_true, decide_eq_true_eq] at hw
    rcases hw with ((rfl | rfl) | rfl) | rfl <;> simp [isDigitChar] at h
  refine ⟨hws, ?_, ?_, ?_, ?_, ?_, ?_, ?_, ?_, ?_⟩ <;>
    (intro he; subst he; simp [isDigitChar] at h)

theorem stringify_head (v : JsValue) (s : List Char) (hs : stringify v = some s) :
    ∃ c t, s = c :: t ∧ isWsChar c = false ∧ c ≠ ']' ∧ c ≠ ',' ∧ c ≠ '}' := by
  cases v with
  | undef => simp [stringify] at hs
  | null =>
    simp only [stringify, Option.some.injEq] at hs
    exact ⟨'n', _, hs.symm, by decide, by decide, by decide, by decide⟩
  | bool b =>
    cases b <;> simp only [stringify, Option.some.injEq] at hs
    · exact ⟨'f', _, hs.symm, by decide, by decide, by decide, by decide⟩
    · exact ⟨'t', _, hs.symm, by decide, by decide, by decide, by decide⟩
  | num n =>
    simp only [stringify, Option.some.injEq] at hs
    subst hs
    unfold intChars
    split_ifs with hneg
    · exact ⟨'-', _, rfl, by decide, by decide, by decide, by decide⟩
    · cases hd : natDigitsF n.natAbs n.natAbs [] with
      | nil => exact absurd hd (natDigitsF_ne_nil _ _ _)
      | cons d ds =>
        have hdig : isDigitChar d = true := by
          have := natDigitsF_digits n.natAbs n.natAbs d
          rw [hd] at this
          exact this (by simp)
        obtain ⟨hws, h1, h2, h3, _⟩ := digit_head_facts d hdig
        exact ⟨d, ds, by rw [show natDigits n.natAbs [] =
          natDigitsF n.natAbs n.natAbs [] from rfl, hd], hws, h1, h2, h3⟩
  | str s0 =>
    simp only [stringify, Option.some.injEq] at hs
    exact ⟨'"', _, hs.symm, by decide, by decide, by decide, by decide⟩
  | arr xs =>
    simp only [stringify, Option.some.injEq] at hs
    exact ⟨'[', _, hs.symm, by decide, by decide, by decide, by decide⟩
  | obj kvs =>
    simp only [stringify, Option.some.injEq] at hs
    exact ⟨'{', _, hs.symm, by decide, by decide, by decide, by decide⟩

theorem insertKey_fresh (acc : List (List Char × JsValue)) (k : List Char)
    (v : JsValue) (h : acc.any (fun p => p.1 = k) = false) :
    insertKey acc k v = acc ++ [(k, v)] := by
  unfold insertKey
  rw [if_neg]
  simp [h]

theorem fields_nil_iff (kvs : List (List Char × JsValue))
    (hc : canonicalFields kvs = true) :
    stringifyFields kvs = [] ↔ kvs = [] := by
  constructor
  · intro h
    cases kvs with
    | nil => rfl
    | cons kv rest =>
      obtain ⟨k, v⟩ := kv
      simp only [canonicalFields, Bool.and_eq_true] at hc
      obtain ⟨sv, hsv⟩ := canonical_stringify v hc.1
      rw [show stringifyFields ((k, v) :: rest) =
        (quoteChars k ++ ':' :: sv) :: stringifyFields rest from by
        simp [stringifyFields, hsv]] at h
      exact absurd h (by simp)
  · intro h
    subst h
    simp [stringifyFields]

theorem parseValue_digit_step (fuel : Nat) (c : Char) (l : List Char)
    (hd : c = '-' ∨ isDigitChar c = true) :
    parseValue (fuel + 1) (c :: l) = parseNumber (c :: l) := by
  have hws : isWsChar c = false := by
    rcases hd with rfl | hd
    · decide
    · exact (digit_head_facts c hd).1
  have hno : c ≠ 'n' ∧ c ≠ 't' ∧ c ≠ 'f' ∧ c ≠ '"' ∧ c ≠ '[' ∧ c ≠ '{' := by
    rcases hd with rfl | hd
    · exact ⟨by decide, by decide, by decide, by decide, by decide, by decide⟩
    · obtain ⟨_, _, _, _, h5, h6, h7, h8, h9, h10⟩ := digit_head_facts c hd
      exact ⟨h5, h6, h7, h8, h9, h10⟩
  obtain ⟨hn, ht, hff, hq, hbr, hbc⟩ := hno
  simp only [parseValue]
  rw [skipWs_cons _ _ hws]
  split
  · rename_i heq
    injection heq with hx _
    exact absurd hx hn
  · rename_i heq
    injection heq with hx _
    exact absurd hx ht
  · rename_i heq
    injection heq with hx _
    exact absurd hx hff
  · rename_i heq
    injection heq with hx _
    exact absurd hx hq
  · rename_i heq
    injection heq with hx _
    exact absurd hx hbr
  · rename_i heq
    injection heq with hx _
    exact absurd hx hbc
  · rename_i heq
    injection heq with hx hy
    subst hx
    subst hy
    rw [if_pos]
    rcases hd with rfl | hd
    · simp
    · simp [hd]
  · rename_i heq
    exact absurd heq (by simp)

theorem parse_stringify_main :
    ∀ n : Nat, ∀ v : JsValue, sizeOf v ≤ n → canonical v = true →
      ∀ (fuel : Nat) (s rest : List Char), stringify v = some s →
        s.length ≤ fuel → numBoundary rest →
        parseValue fuel (s ++ rest) = some (v, rest) := by
  intro n
  induction n with
  | zero =>
    intro v hv
    exfalso
    cases v <;> simp at hv
  | succ n ihval =>
    intro v hv hc fuel s rest hs hf hb
    cases v with
    | undef => simp [canonical] at hc
    | null =>
      simp only [stringify, Option.some.injEq] at hs
      subst hs
      obtain ⟨f, rfl⟩ : ∃ f, fuel = f + 1 :=
        ⟨fuel - 1, by simp [nullChars] at hf; omega⟩
      show parseValue (f + 1) ('n' :: 'u' :: 'l' :: 'l' :: rest) = _
      simp only [parseValue]
      rw [skipWs_cons _ _ (by decide)]
      rfl
    | bool b =>
      cases b with
      | true =>
        simp only [stringify, Option.some.injEq] at hs
        subst hs
        obtain ⟨f, rfl⟩ : ∃ f, fuel = f + 1 := ⟨fuel - 1, by simp at hf; omega⟩
        show parseValue (f + 1) ('t' :: 'r' :: 'u' :: 'e' :: rest) = _
        simp only [parseValue]
        rw [skipWs_cons _ _ (by decide)]
        rfl
      | false =>
        simp only [stringify, Option.some.injEq] at hs
        subst hs
        obtain ⟨f, rfl⟩ : ∃ f, fuel = f + 1 := ⟨fuel - 1, by simp at hf; omega⟩
        show parseValue (f + 1) ('f' :: 'a' :: 'l' :: 's' :: 'e' :: rest) = _
        simp only [parseValue]
        rw [skipWs_cons _ _ (by decide)]
        rfl
    | num m =>
      simp only [stringify, Option.some.injEq] at hs
      subst hs
      have hcons : ∃ c t, intChars m = c :: t ∧ (c = '-' ∨ isDigitChar c = true) := by
        unfold intChars
        split_ifs with hneg
        · exact ⟨'-', _, rfl, Or.inl rfl⟩
        · cases hd : natDigitsF m.natAbs m.natAbs [] with
          | nil => exact absurd hd (natDigitsF_ne_nil _ _ _)
          | cons d ds =>
            refine ⟨d, ds, ?_, Or.inr ?_⟩
            · rw [show natDigits m.natAbs [] =
                natDigitsF m.natAbs m.natAbs [] from rfl, hd]
            · have := natDigitsF_digits m.natAbs m.natAbs d
              rw [hd] at this
              exact this (by simp)
      obtain ⟨c, t, hct, hcd⟩ := hcons
      obtain ⟨f, rfl⟩ : ∃ f, fuel = f + 1 :=
        ⟨fuel - 1, by rw [hct] at hf; simp at hf; omega⟩
      rw [hct, List.cons_append, parseValue_digit_step f c _ hcd,
        ← List.cons_append, ← hct]
      exact parseNumber_intChars m rest hb
    | str s0 =>
      simp only [stringify, Option.some.injEq] at hs
      subst hs
      obtain ⟨f, rfl⟩ : ∃ f, fuel = f + 1 :=
        ⟨fuel - 1, by simp [quoteChars] at hf; omega⟩
      show parseValue (f + 1) ('"' :: ((escapeChars s0 ++ ['"']) ++ rest)) = _
      rw [show (escapeChars s0 ++ ['"']) ++ rest =
          escapeChars s0 ++ '"' :: rest from by
        rw [List.append_assoc]; rfl]
      simp only [parseValue]
      rw [skipWs_cons _ _ (by decide)]
      show (parseStrBody (escapeChars s0 ++ '"' :: rest)).map
        (fun p => (JsValue.str p.1, p.2)) = _
      rw [show parseStrBody (escapeChars s0 ++ '"' :: rest) = some (s0, rest) from
        parse_escapeChars s0 _ rest le_rfl]
      rfl
    | arr xs =>
      simp only [stringify, Option.some.injEq] at hs
      subst hs
      simp only [canonical] at hc
      simp only [List.length_cons, List.length_append, List.length_nil] at hf
      obtain ⟨f, rfl⟩ : ∃ f, fuel = f + 1 := ⟨fuel - 1, by omega⟩
      rw [List.cons_append, List.append_assoc,
        show ([']'] : List Char) ++ rest = ']' :: rest from rfl]
      simp only [parseValue]
      rw [skipWs_cons _ _ (by decide)]
      show (match skipWs (stringifyItems xs ++ ']' :: rest) with
        | ']' :: r' => some (JsValue.arr [], r')
        | cs' => Option.map (fun p : List JsValue × List Char =>
            (JsValue.arr p.1, p.2)) (parseElems f cs')) = _
      have PE : ∀ ys : List JsValue, sizeOf ys ≤ sizeOf xs → ys ≠ [] →
          canonicalItems ys = true → ∀ (fu : Nat) (r : List Char),
          (stringifyItems ys).length + 1 ≤ fu → numBoundary r →
          parseElems fu (stringifyItems ys ++ ']' :: r) = some (ys, r) := by
        intro ys
        induction ys with
        | nil => intro _ hne; exact absurd rfl hne
        | cons y ys' ihy =>
          intro hsz _ hcys fu r hfu hbr
          simp only [canonicalItems, Bool.and_eq_true] at hcys
          obtain ⟨hcy, hcys'⟩ := hcys
          have hy : sizeOf y ≤ n := by
            simp only [List.cons.sizeOf_spec] at hsz
            simp only [JsValue.arr.sizeOf_spec] at hv
            omega
          obtain ⟨sy, hsy⟩ := canonical_stringify y hcy
          have hsylen : 1 ≤ sy.length := by
            obtain ⟨c0, t0, hct0, _⟩ := stringify_head y sy hsy
            subst hct0; simp
          rw [show stringifyItems (y :: ys') = sy ++ stringifyItemsTail ys' from by
            simp [stringifyItems, stringifyItem, hsy]] at hfu ⊢
          simp only [List.length_append] at hfu
          obtain ⟨f2, rfl⟩ : ∃ f2, fu = f2 + 1 := ⟨fu - 1, by omega⟩
          simp only [parseElems]
          rw [List.append_assoc]
          have hbnd : numBoundary (stringifyItemsTail ys' ++ ']' :: r) := by
            cases ys' with
            | nil =>
              rw [show stringifyItemsTail ([] : List JsValue) = [] from by
                simp [stringifyItemsTail]]
              exact ⟨by decide, by decide, by decide, by decide⟩
            | cons z zs =>
              rw [show stringifyItemsTail (z :: zs) =
                ',' :: (stringifyItem z ++ stringifyItemsTail zs) from by
                simp [stringifyItemsTail]]
              exact ⟨by decide, by decide, by decide, by decide⟩
          rw [ihval y hy hcy f2 sy _ hsy (by omega) hbnd]
          cases ys' with
          | nil =>
            rw [show stringifyItemsTail ([] : List JsValue) = [] from by
              simp [stringifyItemsTail], List.nil_append]
            show (match skipWs (']' :: r) with
              | ',' :: r' => Option.bind (parseElems f2 r')
                  (fun q : List JsValue × List Char => some (y :: q.1, q.2))
              | ']' :: r' => some ([y], r')
              | _ => none) = some ([y], r)
            rw [skipWs_cons _ _ (by decide)]
            rfl
          | cons z zs =>
            rw [show stringifyItemsTail (z :: zs) =
              ',' :: (stringifyItem z ++ stringifyItemsTail zs) from by
              simp [stringifyItemsTail]]
            rw [show stringifyItem z ++ stringifyItemsTail zs =
              stringifyItems (z :: zs) from by simp [stringifyItems]]
            rw [List.cons_append]
            show (match skipWs (',' :: (stringifyItems (z :: zs) ++ ']' :: r)) with
              | ',' :: r' => Option.bind (parseElems f2 r')
                  (fun q : List JsValue × List Char => some (y :: q.1, q.2))
              | ']' :: r' => some ([y], r')
              | _ => none) = some (y :: z :: zs, r)
            rw [skipWs_cons _ _ (by decide)]
            show Option.bind (parseElems f2 (stringifyItems (z :: zs) ++ ']' :: r))
              (fun q : List JsValue × List Char => some (y :: q.1, q.2)) =
              some (y :: z :: zs, r)
            rw [ihy (by
                simp only [List.cons.sizeOf_spec] at hsz ⊢
                omega)
              (by simp) hcys' f2 r (by
                rw [show stringifyItemsTail (z :: zs) =
                  ',' :: stringifyItems (z :: zs) from by
                  simp [stringifyItemsTail, stringifyItems]] at hfu
                simp only [List.length_cons] at hfu
                omega) hbr]
            rfl
      cases xs with
      | nil =>
        rw [show stringifyItems ([] : List JsValue) = [] from by
          simp [stringifyItems]]
        rw [List.nil_append, skipWs_cons _ _ (by decide)]
        rfl
      | cons x xs' =>
        simp only [canonicalItems, Bool.and_eq_true] at hc
        obtain ⟨hcx, hcxs'⟩ := hc
        obtain ⟨sx, hsx⟩ := canonical_stringify x hcx
        obtain ⟨c0, t0, hct0, hws0, hne1, hne2, hne3⟩ := stringify_head x sx hsx
        have hitems : stringifyItems (x :: xs') =
            c0 :: (t0 ++ stringifyItemsTail xs') := by
          rw [show stringifyItems (x :: xs') = sx ++ stringifyItemsTail xs' from by
            simp [stringifyItems, stringifyItem, hsx], hct0, List.cons_append]
        rw [hitems, List.cons_append, skipWs_cons _ _ hws0]
        rw [show (match c0 :: (t0 ++ stringifyItemsTail xs' ++ ']' :: rest) with
          | ']' :: r' => some (JsValue.arr [], r')
          | cs' => Option.map (fun p : List JsValue × List Char =>
              (JsValue.arr p.1, p.2)) (parseElems f cs')) =
          Option.map (fun p : List JsValue × List Char => (JsValue.arr p.1, p.2))
            (parseElems f (c0 :: (t0 ++ stringifyItemsTail xs' ++ ']' :: rest)))
          from by
          split
          · rename_i heq
            injection heq with hx _
            exact absurd hx hne1
          · rfl]
        rw [show c0 :: (t0 ++ stringifyItemsTail xs' ++ ']' :: rest) =
          stringifyItems (x :: xs') ++ ']' :: rest from by
          rw [hitems, List.cons_append, List.append_assoc]]
        rw [PE (x :: xs') le_rfl (by simp)
          (by simp only [canonicalItems, Bool.and_eq_true]; exact ⟨hcx, hcxs'⟩)
          f rest (by omega) hb]
        rfl
    | obj kvs =>
      simp only [stringify, Option.some.injEq] at hs
      subst hs
      simp only [canonical, Bool.and_eq_true] at hc
      obtain ⟨hnd, hcf⟩ := hc
      simp only [List.length_cons, List.length_append, List.length_nil] at hf
      obtain ⟨f, rfl⟩ : ∃ f, fuel = f + 1 := ⟨fuel - 1, by omega⟩
      rw [List.cons_append, List.append_assoc,
        show (['}'] : List Char) ++ rest = '}' :: rest from rfl]
      simp only [parseValue]
      rw [skipWs_cons _ _ (by decide)]
      show (match skipWs (joinComma (stringifyFields kvs) ++ '}' :: rest) with
        | '}' :: r' => some (JsValue.obj [], r')
        | cs' => Option.map (fun p : List (List Char × JsValue) × List Char =>
            (JsValue.obj p.1, p.2)) (parseMembers f [] cs')) = _
      have PM : ∀ ms : List (List Char × JsValue), sizeOf ms ≤ sizeOf kvs →
          ms ≠ [] → nodupKeys ms = true → canonicalFields ms = true →
          ∀ (fu : Nat) (acc : List (List Char × JsValue)) (r : List Char),
          (joinComma (stringifyFields ms)).length + 1 ≤ fu →
          (∀ p ∈ ms, acc.any (fun q => q.1 = p.1) = false) →
          parseMembers fu acc (joinComma (stringifyFields ms) ++ '}' :: r) =
            some (acc ++ ms, r) := by
        intro ms
        induction ms with
        | nil => intro _ hne; exact absurd rfl hne
        | cons kv ms' ihm =>
          obtain ⟨k2, v2⟩ := kv
          intro hsz _ hndm hcfm fu acc r hfu hfresh
          simp only [canonicalFields, Bool.and_eq_true] at hcfm
          obtain ⟨hcv2, hcf2⟩ := hcfm
          simp only [nodupKeys, Bool.and_eq_true, Bool.not_eq_true'] at hndm
          obtain ⟨hk2f, hnd2⟩ := hndm
          have hv2n : sizeOf v2 ≤ n := by
            simp only [List.cons.sizeOf_spec, Prod.mk.sizeOf_spec] at hsz
            simp only [JsValue.obj.sizeOf_spec] at hv
            omega
          obtain ⟨sv, hsv⟩ := canonical_stringify v2 hcv2
          rw [show stringifyFields ((k2, v2) :: ms') =
            (quoteChars k2 ++ ':' :: sv) :: stringifyFields ms' from by
            simp [stringifyFields, hsv]] at hfu ⊢
          cases hfs : stringifyFields ms' with
          | nil =>
            have hms2 : ms' = [] := (fields_nil_iff ms' hcf2).mp hfs
            subst hms2
            rw [hfs] at hfu
            rw [show joinComma [quoteChars k2 ++ ':' :: sv] =
              quoteChars k2 ++ ':' :: sv from rfl] at hfu ⊢
            rw [show (quoteChars k2 ++ ':' :: sv) ++ '}' :: r =
              '"' :: (escapeChars k2 ++ '"' :: (':' :: (sv ++ '}' :: r))) from by
              simp [quoteChars]]
            simp only [quoteChars, List.length_append, List.length_cons] at hfu
            obtain ⟨f2, rfl⟩ : ∃ f2, fu = f2 + 1 := ⟨fu - 1, by omega⟩
            simp only [parseMembers]
            rw [skipWs_cons _ _ (by decide)]
            show Option.bind (parseStrBody
              (escapeChars k2 ++ '"' :: (':' :: (sv ++ '}' :: r))))
              (fun pk : List Char × List Char =>
                match skipWs pk.2 with
                | ':' :: r2 => Option.bind (parseValue f2 r2)
                    (fun pv : JsValue × List Char =>
                      match skipWs pv.2 with
                      | ',' :: r4 => parseMembers f2 (insertKey acc pk.1 pv.1) r4
                      | '}' :: r4 => some (insertKey acc pk.1 pv.1, r4)
                      | _ => none)
                | _ => none) = some (acc ++ [(k2, v2)], r)
            rw [show parseStrBody (escapeChars k2 ++ '"' :: (':' :: (sv ++ '}' :: r)))
              = some (k2, ':' :: (sv ++ '}' :: r)) from
              parse_escapeChars k2 _ _ le_rfl]
            show (match skipWs (':' :: (sv ++ '}' :: r)) with
              | ':' :: r2 => Option.bind (parseValue f2 r2)
                  (fun pv : JsValue × List Char =>
                    match skipWs pv.2 with
                    | ',' :: r4 => parseMembers f2 (insertKey acc k2 pv.1) r4
                    | '}' :: r4 => some (insertKey acc k2 pv.1, r4)
                    | _ => none)
              | _ => none) = some (acc ++ [(k2, v2)], r)
            rw [skipWs_cons _ _ (by decide)]
            show Option.bind (parseValue f2 (sv ++ '}' :: r))
              (fun pv : JsValue × List Char =>
                match skipWs pv.2 with
                | ',' :: r4 => parseMembers f2 (insertKey acc k2 pv.1) r4
                | '}' :: r4 => some (insertKey acc k2 pv.1, r4)
                | _ => none) = some (acc ++ [(k2, v2)], r)
            rw [ihval v2 hv2n hcv2 f2 sv ('}' :: r) hsv (by omega)
              ⟨by decide, by decide, by decide, by decide⟩]
            show (match skipWs ('}' :: r) with
              | ',' :: r4 => parseMembers f2 (insertKey acc k2 v2) r4
              | '}' :: r4 => some (insertKey acc k2 v2, r4)
              | _ => none) = some (acc ++ [(k2, v2)], r)
            rw [skipWs_cons _ _ (by decide)]
            rw [show insertKey acc k2 v2 = acc ++ [(k2, v2)] from
              insertKey_fresh acc k2 v2 (hfresh (k2, v2) (by simp))]
            rfl
          | cons ffrag more =>
            have hms2 : ms' ≠ [] := by
              intro h
              rw [h] at hfs
              simp [stringifyFields] at hfs
            rw [hfs] at hfu
            rw [show joinComma ((quoteChars k2 ++ ':' :: sv) :: ffrag :: more) =
              (quoteChars k2 ++ ':' :: sv) ++ ',' :: joinComma (ffrag :: more)
              from rfl] at hfu ⊢
            rw [← hfs] at hfu ⊢
            rw [show ((quoteChars k2 ++ ':' :: sv) ++
                ',' :: joinComma (stringifyFields ms')) ++ '}' :: r =
              '"' :: (escapeChars k2 ++ '"' :: (':' :: (sv ++
                ',' :: (joinComma (stringifyFields ms') ++ '}' :: r)))) from by
              simp [quoteChars]]
            simp only [quoteChars, List.length_append, List.length_cons] at hfu
            obtain ⟨f3, rfl⟩ : ∃ f3, fu = f3 + 1 := ⟨fu - 1, by omega⟩
            simp only [parseMembers]
            rw [skipWs_cons _ _ (by decide)]
            show Option.bind (parseStrBody (escapeChars k2 ++ '"' ::
              (':' :: (sv ++ ',' :: (joinComma (stringifyFields ms') ++ '}' :: r)))))
              (fun pk : List Char × List Char =>
                match skipWs pk.2 with
                | ':' :: r2 => Option.bind (parseValue f3 r2)
                    (fun pv : JsValue × List Char =>
                      match skipWs pv.2 with
                      | ',' :: r4 => parseMembers f3 (insertKey acc pk.1 pv.1) r4
                      | '}' :: r4 => some (insertKey acc pk.1 pv.1, r4)
                      | _ => none)
                | _ => none) = some (acc ++ ((k2, v2) :: ms'), r)
            rw [show parseStrBody (escapeChars k2 ++ '"' ::
              (':' :: (sv ++ ',' :: (joinComma (stringifyFields ms') ++ '}' :: r))))
              = some (k2, ':' :: (sv ++ ',' :: (joinComma (stringifyFields ms') ++
                '}' :: r))) from parse_escapeChars k2 _ _ le_rfl]
            show (match skipWs (':' :: (sv ++ ',' ::
                (joinComma (stringifyFields ms') ++ '}' :: r))) with
              | ':' :: r2 => Option.bind (parseValue f3 r2)
                  (fun pv : JsValue × List Char =>
                    match skipWs pv.2 with
                    | ',' :: r4 => parseMembers f3 (insertKey acc k2 pv.1) r4
                    | '}' :: r4 => some (insertKey acc k2 pv.1, r4)
                    | _ => none)
              | _ => none) = some (acc ++ ((k2, v2) :: ms'), r)
            rw [skipWs_cons _ _ (by decide)]
            show Option.bind (parseValue f3 (sv ++ ',' ::
                (joinComma (stringifyFields ms') ++ '}' :: r)))
              (fun pv : JsValue × List Char =>
                match skipWs pv.2 with
                | ',' :: r4 => parseMembers f3 (insertKey acc k2 pv.1) r4
                | '}' :: r4 => some (insertKey acc k2 pv.1, r4)
                | _ => none) = some (acc ++ ((k2, v2) :: ms'), r)
            rw [ihval v2 hv2n hcv2 f3 sv
              (',' :: (joinComma (stringifyFields ms') ++ '}' :: r)) hsv (by omega)
              ⟨by decide, by decide, by decide, by decide⟩]
            show (match skipWs (',' ::
                (joinComma (stringifyFields ms') ++ '}' :: r)) with
              | ',' :: r4 => parseMembers f3 (insertKey acc k2 v2) r4
              | '}' :: r4 => some (insertKey acc k2 v2, r4)
              | _ => none) = some (acc ++ ((k2, v2) :: ms'), r)
            rw [skipWs_cons _ _ (by decide)]
            show parseMembers f3 (insertKey acc k2 v2)
              (joinComma (stringifyFields ms') ++ '}' :: r) =
              some (acc ++ ((k2, v2) :: ms'), r)
            rw [show insertKey acc k2 v2 = acc ++ [(k2, v2)] from
              insertKey_fresh acc k2 v2 (hfresh (k2, v2) (by simp))]
            have hk2f2 : ∀ p ∈ ms', ¬(p.1 = k2) := by
              intro p hp
              have := List.any_eq_false.mp hk2f p hp
              simpa using this
            rw [ihm (by
                simp only [List.cons.sizeOf_spec] at hsz
                omega) hms2 hnd2 hcf2 f3 (acc ++ [(k2, v2)]) r (by omega)
              (by
                intro p hp
                rw [List.any_append]
                have h1 : acc.any (fun q => q.1 = p.1) = false :=
                  hfresh p (List.mem_cons_of_mem _ hp)
                have h2 : ¬(k2 = p.1) := fun h => (hk2f2 p hp) h.symm
                simp [h1, h2])]
            rw [List.append_assoc]
            rfl
      cases kvs with
      | nil =>
        rw [show stringifyFields ([] : List (List Char × JsValue)) = [] from by
          simp [stringifyFields]]
        rw [show joinComma ([] : List (List Char)) = [] from rfl]
        rw [List.nil_append, skipWs_cons _ _ (by decide)]
        rfl
      | cons kv0 rest0 =>
        obtain ⟨k0, v0⟩ := kv0
        have hcv0 : canonical v0 = true := by
          simp only [canonicalFields, Bool.and_eq_true] at hcf
          exact hcf.1
        obtain ⟨sv0, hsv0⟩ := canonical_stringify v0 hcv0
        have hjc : ∃ T, joinComma (stringifyFields ((k0, v0) :: rest0)) =
            '"' :: T := by
          rw [show stringifyFields ((k0, v0) :: rest0) =
            (quoteChars k0 ++ ':' :: sv0) :: stringifyFields rest0 from by
            simp [stringifyFields, hsv0]]
          cases stringifyFields rest0 with
          | nil =>
            exact ⟨(escapeChars k0 ++ ['"']) ++ ':' :: sv0, by
              simp [joinComma, quoteChars]⟩
          | cons g gs =>
            exact ⟨(escapeChars k0 ++ ['"']) ++ ':' :: sv0 ++
              ',' :: joinComma (g :: gs), by simp [joinComma, quoteChars]⟩
        obtain ⟨T, hT⟩ := hjc
        rw [hT, List.cons_append, skipWs_cons _ _ (by decide)]
        rw [show (match ('"' :: (T ++ '}' :: rest) : List Char) with
          | '}' :: r' => some (JsValue.obj [], r')
          | cs' => Option.map (fun p : List (List Char × JsValue) × List Char =>
              (JsValue.obj p.1, p.2)) (parseMembers f [] cs')) =
          Option.map (fun p : List (List Char × JsValue) × List Char =>
            (JsValue.obj p.1, p.2)) (parseMembers f [] ('"' :: (T ++ '}' :: rest)))
          from by
          split
          · rename_i heq
            injection heq with hx _
            exact absurd hx (by decide)
          · rfl]
        rw [← List.cons_append, ← hT]
        rw [PM ((k0, v0) :: rest0) le_rfl (by simp) hnd hcf f [] rest (by omega)
          (by intro p hp; simp)]
        rfl

theorem jsonParse_stringify (v : JsValue) (s : List Char)
    (hc : canonical v = true) (hs : stringify v = some s) :
    jsonParse s = some v := by
  unfold jsonParse
  have h := parse_stringify_main (sizeOf v) v le_rfl hc (s.length + 1) s [] hs
    (by omega) trivial
  rw [List.append_nil] at h
  rw [h]
  rfl

/-- One loop iteration whose candidate scan closes an object that parses
and is handled takes the `foundMessage = true` exit, consuming the header
and the message bytes. -/
theorem robustLoop_found (st : HandlerState) (data : List Char)
    (fuel start ob rel : Nat) (evs evs2 : List Ev) (msg : JsValue)
    (h1 : start < data.length) (h2 : findOpenBrace data start = some ob)
    (h3 : scanChars (data.drop ob) initScan = .inl rel)
    (h4 : jsonParse ((data.take (ob + rel)).drop ob) = some msg)
    (h5 : handleParsedMessage msg = some evs2) :
    robustLoop st data (fuel + 1) start evs =
      (.found,
        { st with inputBuffer :=
            st.inputBuffer.drop (HEADER_SIZE + utf8Len (data.take (ob + rel))) },
        evs ++ evs2) := by
  simp only [robustLoop, h1, if_true, h2, h3, h4, h5]

/-- C7.  In the tolerant strategy, a buffer of four arbitrary header bytes
followed by the UTF-8 encoding of a serialized JSON object (with distinct
keys and no unserializable values, and not shaped like a `{length, message}`
envelope) yields exactly that object: the call reports a message, empties
the buffer, and emits the parsed object — string literals containing a
closing brace or an escaped quote included, since the scanner tracks
`inString`/`escapeNext`. -/
theorem robust_extracts_object (hdr : List Nat)
    (kvs : List (List Char × JsValue)) (s : List Char) (st : HandlerState)
    (hh : hdr.length = 4) (hc : canonical (.obj kvs) = true)
    (hs : stringify (.obj kvs) = some s)
    (hw : isWrappedMessage (.obj kvs) = false)
    (hbuf : st.inputBuffer = hdr ++ utf8Encode s) :
    processNextMessageRobust st =
      (true, { st with inputBuffer := [], accumulatedString := s },
        [.message (.obj kvs)]) := by
  have hshape : s = '{' :: (joinComma (stringifyFields kvs) ++ ['}']) := by
    have hs2 := hs
    simp only [stringify, Option.some.injEq] at hs2
    exact hs2.symm
  have hslen : 1 ≤ s.length := by rw [hshape]; simp
  have henc1 : 1 ≤ (utf8Encode s).length := by
    rw [hshape]
    rw [show utf8Encode ('{' :: (joinComma (stringifyFields kvs) ++ ['}'])) =
      charUtf8 '{' ++ utf8Encode (joinComma (stringifyFields kvs) ++ ['}'])
      from rfl]
    have := charUtf8_length_pos '{'
    simp only [List.length_append]
    omega
  have hblen : st.inputBuffer.length = 4 + (utf8Encode s).length := by
    rw [hbuf]; simp [List.length_append, hh]
  have hdrop : st.inputBuffer.drop 4 = utf8Encode s := by
    rw [hbuf, ← hh, List.drop_left]
  have hlt : ¬(st.inputBuffer.length < 4) := by omega
  have hfo : findOpenBrace s 0 = some 0 := by
    rw [hshape]
    simp [findOpenBrace, List.findIdx?_cons]
  have hscan : scanChars (s.drop 0) initScan = .inl s.length := by
    rw [List.drop_zero]
    exact scan_object_closes kvs s hs
  have hjson : jsonParse ((s.take (0 + s.length)).drop 0) = some (.obj kvs) := by
    simp only [Nat.zero_add, List.take_length, List.drop_zero]
    exact jsonParse_stringify _ s hc hs
  have hhandle : handleParsedMessage (.obj kvs) =
      some [Ev.message (.obj kvs)] := by
    simp [handleParsedMessage, hw]
  have hnil : st.inputBuffer.drop
      (HEADER_SIZE + utf8Len (s.take (0 + s.length))) = [] := by
    simp only [Nat.zero_add, List.take_length, utf8Len, HEADER_SIZE]
    apply List.drop_eq_nil_of_le
    omega
  simp only [processNextMessageRobust]
  rw [if_neg hlt, hdrop, utf8Decode_encode]
  rw [robustLoop_found { st with accumulatedString := s } s s.length 0 0
    s.length [] [Ev.message (.obj kvs)] (.obj kvs) hslen hfo hscan hjson hhandle]
  simp only
  rw [show ({ st with accumulatedString := s } : HandlerState).inputBuffer.drop
      (HEADER_SIZE + utf8Len (s.take (0 + s.length))) = [] from hnil]
  rfl

/-- C7 witness: with deliberately wrong header values (0xFFFFFFFF and 0),
the objects of the spec's two examples are extracted: a closing brace
inside a string literal does not close the object early, and an escaped
quote does not flip the string state. -/
theorem robust_extracts_object_witness :
    processNextMessageRobust
      { initialHandlerState with
          inputBuffer := [255, 255, 255, 255] ++
            utf8Encode ['{', '"', 'a', '"', ':', '"', '}', '"', '}'] } =
      (true,
        { initialHandlerState with
            inputBuffer := [],
            accumulatedString := ['{', '"', 'a', '"', ':', '"', '}', '"', '}'] },
        [.message (.obj [(['a'], .str ['}'])])]) ∧
    processNextMessageRobust
      { initialHandlerState with
          inputBuffer := [0, 0, 0, 0] ++
            utf8Encode ['{', '"', 'a', '"', ':', '"', '\\', '"', '"', '}'] } =
      (true,
        { initialHandlerState with
            inputBuffer := [],
            accumulatedString :=
              ['{', '"', 'a', '"', ':', '"', '\\', '"', '"', '}'] },
        [.message (.obj [(['a'], .str ['"'])])]) :=
  ⟨robust_extracts_object [255, 255, 255, 255] [(['a'], .str ['}'])]
      ['{', '"', 'a', '"', ':', '"', '}', '"', '}'] _ rfl
      (by simp [canonical, canonicalFields, nodupKeys])
      (by simp [stringify, stringifyFields, joinComma, quoteChars, escapeChars,
        escapeChar])
      (by decide) rfl,
    robust_extracts_object [0, 0, 0, 0] [(['a'], .str ['"'])]
      ['{', '"', 'a', '"', ':', '"', '\\', '"', '"', '}'] _ rfl
      (by simp [canonical, canonicalFields, nodupKeys])
      (by simp [stringify, stringifyFields, joinComma, quoteChars, escapeChars,
        escapeChar])
      (by decide) rfl⟩
